import Mathlib

/-!
Verification development for the project-management diagram scripts
(`main_wbs.py`, `main_gantt.py`, `main_milestone.py`).

The Python sources are shallowly embedded: strings are `List Char` (wrapped in
`String` where ids are concerned), Python floats are modelled as `ℚ`, Python
ints as `ℤ`/`ℕ`, and the glyph-measurement callback of matplotlib
(`TextPath`-based width measurement) is an abstract parameter
`measure : List Char → ℚ`, since the spec treats the font-metrics provider as
an external pure function.  Loops are embedded as structural recursions; the
two loops whose termination is not structural (the greedy wrapping loop and the
binary search inside it) take an explicit fuel argument, with lemmas showing
the result is stable once the fuel reaches the bound that the Python loop
itself respects.
-/

namespace PM

/-- Model of Python `max` on two floats (used instead of `Max.max` so that
concrete instances reduce). -/
def qmax (a b : ℚ) : ℚ := if a ≤ b then b else a

/-- Model of Python `min` on two naturals. -/
def nmin (a b : ℕ) : ℕ := if a ≤ b then a else b

/-- Characters Python's `str.strip()` / `str.split()` treat as whitespace
(restricted to the ASCII whitespace actually occurring in CSV data). -/
def isWs (c : Char) : Bool := c.isWhitespace

/-- Model of Python `str.strip()`. -/
def pyStrip (cs : List Char) : List Char :=
  ((cs.dropWhile isWs).reverse.dropWhile isWs).reverse

/-- Model of Python `s.split(".")`: split on every dot, keeping empty pieces. -/
def splitDot : List Char → List (List Char)
  | [] => [[]]
  | c :: cs =>
    let r := splitDot cs
    if c = '.' then [] :: r else (c :: r.headD []) :: r.tail

/-- Model of Python `".".join(parts)`. -/
def joinDot : List (List Char) → List Char
  | [] => []
  | [s] => s
  | s :: ss => s ++ '.' :: joinDot ss

/-- Worker for `splitWs`: `acc` holds the reversed current word. -/
def splitWsGo : List Char → List Char → List (List Char)
  | acc, [] => if acc.isEmpty then [] else [acc.reverse]
  | acc, c :: cs =>
    if isWs c then
      if acc.isEmpty then splitWsGo [] cs else acc.reverse :: splitWsGo [] cs
    else
      splitWsGo (c :: acc) cs

/-- Model of Python `str.split()` with no argument: whitespace-delimited
tokens, no empty tokens. -/
def splitWs (cs : List Char) : List (List Char) := splitWsGo [] cs

/-- Digit accumulator for `pyInt?`; an underscore must sit between digits,
as in Python 3 integer literals accepted by `int`. -/
def pyDigitsGo (acc : ℕ) : List Char → Option ℕ
  | [] => some acc
  | '_' :: c :: cs =>
    if c.isDigit then pyDigitsGo (acc * 10 + (c.toNat - 48)) cs else none
  | c :: cs =>
    if c.isDigit then pyDigitsGo (acc * 10 + (c.toNat - 48)) cs else none

/-- Nonempty digit run (underscores allowed between digits). -/
def pyDigits : List Char → Option ℕ
  | [] => none
  | c :: cs => if c.isDigit then pyDigitsGo (c.toNat - 48) cs else none

/-- Model of Python `int(s)` on a string: strip whitespace, optional sign,
digits; `none` models the `ValueError` branch. -/
def pyInt? (s : List Char) : Option ℤ :=
  match pyStrip s with
  | '+' :: rest => (pyDigits rest).map (fun n => (n : ℤ))
  | '-' :: rest => (pyDigits rest).map (fun n => -(n : ℤ))
  | rest => (pyDigits rest).map (fun n => (n : ℤ))

/-- Value of one dotted segment under `id_key`: the parsed integer, or the
`10^6` sentinel of the `except` branch. -/
def segVal (s : List Char) : ℤ :=
  match pyInt? s with
  | some z => z
  | none => 10 ^ 6

/-- Key of a list of segments (the tuple built by `id_key`). -/
def segsKey (ss : List (List Char)) : List ℤ := ss.map segVal

/-- Embedding of `id_key` from `main_wbs.py`: split the id on dots and map
each part through `int` with the `10^6` sentinel fallback. -/
def id_key (s : String) : List ℤ := segsKey (splitDot s.data)

/-- Python tuple `<` on integer tuples: lexicographic, with a strict prefix
comparing as smaller. -/
def keyLt : List ℤ → List ℤ → Bool
  | [], [] => false
  | [], _ :: _ => true
  | _ :: _, [] => false
  | a :: as, b :: bs => if a < b then true else if b < a then false else keyLt as bs

/-- Python `"." in k`. -/
def hasDot (k : String) : Bool := k.data.contains '.'

/-- Python `".".join(k.split(".")[:-1])`: the id with its last dotted segment
removed. -/
def parentId (k : String) : String := ⟨joinDot ((splitDot k.data).dropLast)⟩

/-- Number of dotted segments of an id. -/
def depth (k : String) : ℕ := (splitDot k.data).length

/-- Stable insertion into a sorted list: the inserted element goes before any
element it is not strictly greater than. -/
def insertOrd (lt : α → α → Bool) (a : α) : List α → List α
  | [] => [a]
  | b :: bs => if lt b a then b :: insertOrd lt a bs else a :: b :: bs

/-- Stable sort, modelling Python `list.sort` / `sorted` (which are stable);
`lt a b` means the sort key of `a` is strictly less than the key of `b`. -/
def pySortBy (lt : α → α → Bool) : List α → List α
  | [] => []
  | a :: as => insertOrd lt a (pySortBy lt as)

/-- Strict comparison of two ids by `id_key`, as used by every
`sort(key=id_key)` in the source. -/
def idLt (a b : String) : Bool := keyLt (id_key a) (id_key b)

/-- Python dict insertion: overwrite the value in place if the key exists,
otherwise append (dicts preserve insertion order). -/
def dictInsert (m : List (String × String)) (k v : String) : List (String × String) :=
  if m.any (fun p => p.1 = k) then
    m.map (fun p => if p.1 = k then (k, v) else p)
  else
    m ++ [(k, v)]

/-- The `nodes` dict of `build_hierarchy`: `{r[id_col]: r[title_col] for _, r
in df.iterrows()}`, with Python's silent overwrite on duplicate keys. -/
def buildNodes (df : List (String × String)) : List (String × String) :=
  df.foldl (fun m r => dictInsert m r.1 r.2) []

/-- Keys of the `nodes` dict, in insertion order. -/
def nodeIds (df : List (String × String)) : List String :=
  (buildNodes df).map Prod.fst

/-- Python dict lookup on the `nodes` dict. -/
def dictLookup (m : List (String × String)) (k : String) : Option String :=
  match m.find? (fun p => p.1 = k) with
  | some p => some p.2
  | none => none

/-- The `children` mapping of `build_hierarchy` as a function: for any key
`p`, the ids whose parent id is `p`, in insertion order, sorted by `id_key`
(this models both `children[p]` and `children.get(p, [])`, since absent keys
give the empty list). -/
def childrenMap (df : List (String × String)) (p : String) : List String :=
  pySortBy idLt ((nodeIds df).filter (fun k => hasDot k && parentId k == p))

/-- The `top_levels` list of `build_hierarchy`: ids without a dot, sorted by
`id_key`. -/
def top_levels (df : List (String × String)) : List String :=
  pySortBy idLt ((nodeIds df).filter (fun k => !hasDot k))

/-- Fuel-bounded traversal of the forest: a node followed by the traversals of
its children.  With fuel at least the tree depth this is exactly the set of
nodes reachable from `r` through the children mapping. -/
def descend (ch : String → List String) : ℕ → String → List String
  | 0, r => [r]
  | fuel + 1, r => r :: (ch r).flatMap (descend ch fuel)

/-- Ancestor-or-equal on dotted ids: `r` is reached from `k` by repeatedly
dropping the last dotted segment. -/
inductive IsUnder : String → String → Prop
  | refl (k : String) : IsUnder k k
  | step (r k : String) : hasDot k = true → IsUnder r (parentId k) → IsUnder r k

/-! ### Text wrapping (`draw_box` in `main_wbs.py`) -/

/-- The binary search of `draw_box` that finds the longest prefix of an
over-long token that still fits: state is `(lo, hi, best)`, fuel-bounded
(the Python loop runs at most `len(token)` times since `hi + 1 - lo`
strictly decreases). -/
def bsearchGo (fits : ℕ → Bool) : ℕ → ℕ → ℕ → ℕ → ℕ
  | 0, _, _, best => best
  | fuel + 1, lo, hi, best =>
    if lo ≤ hi then
      let mid := (lo + hi) / 2
      if fits mid then bsearchGo fits fuel (mid + 1) hi mid
      else bsearchGo fits fuel lo (mid - 1) best
    else best

/-- The greedy wrapping loop of `draw_box`: state is the remaining word queue
(Python's `words[i:]`, including the requeued remainder written back into
`words[i]`), the current line, and the accepted lines.  The loop exits when
the queue is empty or the line budget is full; fuel-bounded, with
`wrapGoMeasure` below strictly decreasing at every iteration. -/
def wrapGo (measure : List Char → ℚ) (innerW : ℚ) (maxFit : ℕ) :
    ℕ → List (List Char) → List Char → List (List Char) →
    List (List Char) × List Char × List (List Char)
  | 0, ws, current, lines => (ws, current, lines)
  | fuel + 1, ws, current, lines =>
    match ws with
    | [] => ([], current, lines)
    | w :: rest =>
      if lines.length < maxFit then
        let trial := if current.isEmpty then w else pyStrip (current ++ ' ' :: w)
        if measure trial ≤ innerW then
          wrapGo measure innerW maxFit fuel rest trial lines
        else if current.isEmpty then
          let best := bsearchGo (fun m => decide (measure (w.take m) ≤ innerW))
            (w.length + 1) 1 w.length 1
          let remainder := w.drop best
          if remainder.isEmpty then
            wrapGo measure innerW maxFit fuel rest [] (lines ++ [w.take best])
          else
            wrapGo measure innerW maxFit fuel (remainder :: rest) [] (lines ++ [w.take best])
        else
          wrapGo measure innerW maxFit fuel (w :: rest) [] (lines ++ [current])
      else (w :: rest, current, lines)

/-- Termination measure of the Python wrapping loop: it strictly decreases at
every iteration, so it also bounds the number of iterations. -/
def wrapGoMeasure (maxFit : ℕ) (ws : List (List Char)) (lines : List (List Char)) : ℕ :=
  (maxFit - lines.length) * (ws.length + 1) + ws.length + 1

/-- The ellipsis character appended by `draw_box` on truncation. -/
def ellChar : Char := '…'

/-- The trimming loop of `draw_box`: drop trailing characters from the last
line until the line plus the ellipsis fits (or the line is empty);
fuel-bounded, one character per iteration. -/
def trimLoop (measure : List Char → ℚ) (innerW : ℚ) : ℕ → List Char → List Char
  | 0, last => last
  | fuel + 1, last =>
    if measure (last ++ [ellChar]) ≤ innerW then last
    else if last.isEmpty then last
    else trimLoop measure innerW fuel last.dropLast

/-- Replacement of the last accepted line on truncation:
`lines[-1] = (last + ell) if last else ell`. -/
def ellipsize (measure : List Char → ℚ) (innerW : ℚ) (last : List Char) : List Char :=
  let t := trimLoop measure innerW (last.length + 1) last
  if t.isEmpty then [ellChar] else t ++ [ellChar]

/-- The post-loop flush of `draw_box`:
`if current and len(lines) < max_fit_lines: lines.append(current)`. -/
def flushLines (maxFit : ℕ) (current : List Char) (lines0 : List (List Char)) :
    List (List Char) :=
  if ¬ current.isEmpty ∧ lines0.length < maxFit then lines0 ++ [current] else lines0

/-- The cap `if len(lines) > max_fit_lines: lines = lines[:max_fit_lines]`. -/
def capLines (maxFit : ℕ) (l : List (List Char)) : List (List Char) :=
  if maxFit < l.length then l.take maxFit else l

/-- The flag `truncated = (i < n) or (current and len(lines) ==
max_fit_lines)` — note that `current` here is the stale value left over after
the post-loop flush, which is what the source reads. -/
def truncFlag (maxFit : ℕ) (ws : List (List Char)) (current : List Char)
    (lines2 : List (List Char)) : Bool :=
  !ws.isEmpty || (!current.isEmpty && lines2.length == maxFit)

/-- `if truncated and lines: <replace the last line with its ellipsized
form>`. -/
def applyEllipsis (measure : List Char → ℚ) (innerW : ℚ) (t : Bool)
    (lines2 : List (List Char)) : List (List Char) :=
  if t && !lines2.isEmpty then
    lines2.dropLast ++ [ellipsize measure innerW (lines2.getLastD [])]
  else lines2

/-- Everything of `draw_box` after the wrapping loop exits, given the loop's
final state. -/
def wrapFinish (measure : List Char → ℚ) (innerW : ℚ) (maxFit : ℕ)
    (ws : List (List Char)) (current : List Char) (lines0 : List (List Char)) :
    List (List Char) × Bool :=
  let lines2 := capLines maxFit (flushLines maxFit current lines0)
  (applyEllipsis measure innerW (truncFlag maxFit ws current lines2) lines2,
    truncFlag maxFit ws current lines2)

/-- The whole wrapping computation of `draw_box` (lines 93–141 of
`main_wbs.py`), from the word split through the post-loop flush, the cap, the
`truncated` flag and the ellipsis replacement, parameterised by the measured
inner width and the line budget. -/
def wrapText (measure : List Char → ℚ) (innerW : ℚ) (maxFit : ℕ) (text : List Char) :
    List (List Char) × Bool :=
  let words := splitWs text
  let fuel := maxFit * (words.length + 1) + words.length + 1
  let r := wrapGo measure innerW maxFit fuel words [] []
  wrapFinish measure innerW maxFit r.1 r.2.1 r.2.2

/-- Pixel size of a font measured in points (`_px_from_points`). -/
def pxFromPoints (points dpi : ℚ) : ℚ := points * dpi / 72

/-- The inner width of a box: `max(1, (w - 2 * padding_x) * 0.8)`. -/
def innerWidth (w padding_x : ℚ) : ℚ := qmax 1 ((w - 2 * padding_x) * (4 / 5))

/-- The inner height of a box: `max(1, h - 2 * padding_y)`. -/
def innerHeight (h padding_y : ℚ) : ℚ := qmax 1 (h - 2 * padding_y)

/-- Height of one wrapped line in pixels. -/
def lineHeightPx (fontsize dpi line_spacing : ℚ) : ℚ :=
  pxFromPoints fontsize dpi * line_spacing

/-- Python `max(1, z)` for an int `z`, landing in `ℕ`. -/
def imax1 (z : ℤ) : ℕ := if z ≤ 1 then 1 else z.toNat

/-- The line budget of `draw_box`:
`max(1, int(inner_h // line_h_px))`, then capped by `max_lines`. -/
def maxFitLines (h padding_y fontsize dpi line_spacing : ℚ) (max_lines : ℕ) : ℕ :=
  nmin (imax1 ⌊innerHeight h padding_y / lineHeightPx fontsize dpi line_spacing⌋) max_lines

/-- The wrapping behaviour of `draw_box` with the inner width and line budget
derived from the box geometry exactly as in the source. -/
def draw_box_wrap (measure : List Char → ℚ)
    (w h padding_x padding_y fontsize dpi line_spacing : ℚ) (max_lines : ℕ)
    (text : List Char) : List (List Char) × Bool :=
  wrapText measure (innerWidth w padding_x)
    (maxFitLines h padding_y fontsize dpi line_spacing max_lines) text

/-! ### Height estimation and column layout (`estimate_height` and the column
loop of `main` in `main_wbs.py`) -/

/-- One step of the `estimate_height` loop over the level-2 children. -/
def estStep (ch : String → List String) (bh lg tg : ℚ) (y : ℚ) (sec : String) : ℚ :=
  let y1 := y + bh + lg
  if (ch sec).isEmpty then y1 else y1 + tg + ((ch sec).length : ℚ) * (bh + lg)

/-- Embedding of `estimate_height(root, children, box_h, lvl_gap_y,
third_gap)` from `main_wbs.py`. -/
def estimate_height (root : String) (ch : String → List String) (bh lg tg : ℚ) : ℚ :=
  ((ch root).foldl (estStep ch bh lg tg) (bh + lg)) + 400

/-- One step of the column layout loop of `main`: advances the running `y`
exactly as the source does and records the bottom edge of everything drawn
for this level-2 node (its box, its connector stubs, and — when it has
level-3 children — the third-level boxes, their connector stubs and the
third-level spine, which overshoots the last box by 30px). -/
def colStep (ch : String → List String) (bh lg tg : ℚ) (s : ℚ × List ℚ) (sec : String) :
    ℚ × List ℚ :=
  let y := s.1
  let acc := (y + bh) :: (y + bh / 2) :: s.2
  let thirds := ch sec
  if thirds.isEmpty then (y + bh + lg, acc)
  else
    let t0 := y + bh + lg + tg
    let k := thirds.length
    let lastTop := t0 + ((k : ℚ) - 1) * (bh + lg)
    let acc2 := (lastTop + bh + 30) ::
      (((List.range k).map (fun i : ℕ => t0 + (i : ℚ) * (bh + lg) + bh)) ++
       ((List.range k).map (fun i : ℕ => t0 + (i : ℚ) * (bh + lg) + bh / 2)) ++ acc)
    (lastTop + bh + lg, acc2)

/-- Bottom edges of everything the column loop of `main` draws for one root
column, starting at `y0` (the source's `y_start_cols`): the level-1 box, its
mid-height connector, and the per-`sec` contributions of `colStep`. -/
def columnBottoms (ch : String → List String) (root : String) (bh lg tg y0 : ℚ) : List ℚ :=
  ((ch root).foldl (colStep ch bh lg tg) (y0 + bh + lg, [y0 + bh, y0 + bh / 2])).2

/-! ### Connector segments and paths -/

/-- A drawn straight segment between two points. -/
structure Seg where
  p1 : ℚ × ℚ
  p2 : ℚ × ℚ
deriving DecidableEq

/-- The `vline` helper of `main_wbs.py`. -/
def vseg (x y1 y2 : ℚ) : Seg := ⟨(x, y1), (x, y2)⟩

/-- The `hline` helper of `main_wbs.py`. -/
def hseg (x1 x2 y : ℚ) : Seg := ⟨(x1, y), (x2, y)⟩

/-- A segment is axis-aligned when its x or its y coordinate is constant. -/
def axisAligned (s : Seg) : Prop := s.p1.1 = s.p2.1 ∨ s.p1.2 = s.p2.2

/-- A polyline is orthogonal when every consecutive pair of points spans an
axis-aligned segment. -/
def pathOrtho (p : List (ℚ × ℚ)) : Prop :=
  List.Chain' (fun a b => a.1 = b.1 ∨ a.2 = b.2) p

/-- The layout constants of `main` in `main_wbs.py` (after the `int(...)`
scalings): box width/height, column gap, level gap, third-level gap,
third-level indent and spine offset. -/
structure WbsCfg where
  bw : ℚ
  bh : ℚ
  cg : ℚ
  lg : ℚ
  tg : ℚ
  indent : ℚ
  spineOff : ℚ

/-- The concrete constants of the source: `box_w=1320`, `box_h=720`,
`col_gap=1350`, `lvl_gap_y=300`, `third_gap=360`, `indent_dx=840`,
`spine_offset=72`. -/
def wbsCfg0 : WbsCfg := ⟨1320, 720, 1350, 300, 360, 840, 72⟩

/-- Connector segments drawn by the `for sec in children.get(root, [])` loop
of `main`: the spine-to-box stub of each level-2 box and, when a level-2 node
has level-3 children, the stub to the third-level spine, the two vertical
spine strokes and one stub per third-level box. -/
def secsSegs (ch : String → List String) (cfg : WbsCfg) (xSpine xLeft xCenter : ℚ) :
    List String → ℚ → List Seg
  | [], _ => []
  | sec :: rest, y =>
    let secMid := y + cfg.bh / 2
    let thirds := ch sec
    if thirds.isEmpty then
      hseg xSpine xLeft secMid :: secsSegs ch cfg xSpine xLeft xCenter rest (y + cfg.bh + cfg.lg)
    else
      let t0 := y + cfg.bh + cfg.lg + cfg.tg
      let k := thirds.length
      let lastTop := t0 + ((k : ℚ) - 1) * (cfg.bh + cfg.lg)
      let xThSpine := xCenter + cfg.indent - cfg.bw / 2 - 60
      let xThCenter := xCenter + cfg.indent
      (hseg xSpine xLeft secMid ::
        hseg xLeft xThSpine secMid ::
        vseg xThSpine secMid (lastTop + cfg.bh + 30) ::
        vseg xThSpine (t0 - 30) (lastTop + cfg.bh + 30) ::
        (List.range k).map (fun i : ℕ => hseg xThSpine (xThCenter - cfg.bw / 2)
          (t0 + (i : ℚ) * (cfg.bh + cfg.lg) + cfg.bh / 2))) ++
      secsSegs ch cfg xSpine xLeft xCenter rest (lastTop + cfg.bh + cfg.lg)

/-- The `sec_positions[-1]` value of the column loop: the mid-height of the
last level-2 box, when there is one, tracking the same `y` progression as
`secsSegs`. -/
def lastSecMid (ch : String → List String) (cfg : WbsCfg) : List String → ℚ → Option ℚ
  | [], _ => none
  | sec :: rest, y =>
    let thirds := ch sec
    let ynext :=
      if thirds.isEmpty then y + cfg.bh + cfg.lg
      else y + cfg.bh + cfg.lg + cfg.tg + ((thirds.length : ℚ) - 1) * (cfg.bh + cfg.lg) +
        cfg.bh + cfg.lg
    match lastSecMid ch cfg rest ynext with
    | some m => some m
    | none => some (y + cfg.bh / 2)

/-- All connector segments of one root column: the three title connectors,
the per-`sec` segments, and the level-1 spine stroke down to the last
level-2 mid-height. -/
def columnSegs (ch : String → List String) (cfg : WbsCfg) (xTitle titleBottom yStart : ℚ)
    (root : String) (xCenter : ℚ) : List Seg :=
  let xLeft := xCenter - cfg.bw / 2
  let xSpine := xLeft - cfg.spineOff
  let l1mid := yStart + cfg.bh / 2
  (vseg xTitle titleBottom l1mid :: hseg xTitle xSpine l1mid :: hseg xSpine xLeft l1mid ::
    secsSegs ch cfg xSpine xLeft xCenter (ch root) (yStart + cfg.bh + cfg.lg)) ++
  (match lastSecMid ch cfg (ch root) (yStart + cfg.bh + cfg.lg) with
   | some m => [vseg xSpine l1mid m]
   | none => [])

/-- Every connector segment drawn by `main` in `main_wbs.py` for the forest
built from `df`, with the figure-width, title and column x-positions computed
as in the source. -/
def wbsSegments (df : List (String × String)) : List Seg :=
  let roots := top_levels df
  let ch := childrenMap df
  let cfg := wbsCfg0
  let figW := qmax 14400 ((roots.length : ℚ) * (cfg.bw + cfg.cg) + cfg.cg)
  let xTitle := figW / 2
  let titleBottom := 60 + 420
  let yStart := titleBottom + 180
  roots.enum.flatMap (fun p =>
    let xCenter := cfg.cg / 2 + (p.1 : ℚ) * (cfg.bw + cfg.cg) + cfg.bw / 2
    columnSegs ch cfg xTitle titleBottom yStart p.2 xCenter)

/-! ### Gantt dependency routing (`plot_gantt` in `main_gantt.py`) -/

/-- One row of the frame handed to `plot_gantt`: only the fields the
dependency pass reads are modelled (`ID`, `Start`, `Finish`, `Milestone`,
`_Deps`); dates are their `date2num` values. -/
structure GRow where
  id : Option String
  task : String
  start : ℚ
  finish : ℚ
  milestone : Bool
  deps : List String

/-- The key under which a row is registered in `id_index`:
`str(row["ID"]).strip()` when the ID is present and nonempty after
stripping. -/
def rowKey (r : GRow) : Option String :=
  match r.id with
  | none => none
  | some s =>
    let t := pyStrip s.data
    if t.isEmpty then none else some ⟨t⟩

/-- The data stored per id in `id_index`: row position and the fields used by
the dependency router. -/
structure PredInfo where
  y : ℕ
  start : ℚ
  finish : ℚ
  milestone : Bool
deriving DecidableEq

/-- The `id_index` dict of `plot_gantt` as a lookup function (later rows
overwrite earlier ones, as in a Python dict). -/
def idIndex (rows : List GRow) (dep : String) : Option PredInfo :=
  rows.enum.foldl
    (fun acc p =>
      match rowKey p.2 with
      | some k => if k = dep then some ⟨p.1, p.2.start, p.2.finish, p.2.milestone⟩ else acc
      | none => acc)
    none

/-- Connector paths produced for one dependency reference of the row at
position `i` starting at `start`: the `continue` branch when the predecessor
id is unknown produces nothing, else one elbow — horizontal at the
predecessor's row from its end anchor to the successor's start x, then
vertical down to the successor's row. -/
def pathsOfDep (rows : List GRow) (i : ℕ) (start : ℚ) (dep : String) :
    List (List (ℚ × ℚ)) :=
  match idIndex rows dep with
  | none => []
  | some pred =>
    let x0 := if pred.milestone then pred.start else pred.finish
    [[(x0, (pred.y : ℚ)), (start, (pred.y : ℚ)), (start, (i : ℚ))]]

/-- All dependency connector paths of `plot_gantt`. -/
def ganttConnectorPaths (rows : List GRow) : List (List (ℚ × ℚ)) :=
  rows.enum.flatMap (fun p => p.2.deps.flatMap (pathsOfDep rows p.1 p.2.start))

/-- Warnings recorded and returned by `plot_gantt`: the source records none —
a dependency whose predecessor id is missing is skipped by a bare `continue`
with no message, accumulator or return value — so the recorded-warning list
is empty by construction. -/
def ganttWarnings (_rows : List GRow) : List String := []

/-! ### Milestone stagger layout (`plot_milestones` in `main_milestone.py`) -/

/-- One row of the frame handed to `plot_milestones` (fields the stagger pass
reads). -/
structure MRow where
  task : String
  start : ℚ
  milestone : Bool

/-- The fixed stagger offsets `LEVEL_SEQUENCE = [3, -3, 2, -2, 1, -1]`. -/
def LEVEL_SEQUENCE : List ℚ := [3, -3, 2, -2, 1, -1]

/-- Everything `plot_milestones` derives per event: marker x, stagger level,
the vertical connector, the vertical alignment of the label and the label's
anchor y. -/
structure MItem where
  x : ℚ
  level : ℚ
  connector : List (ℚ × ℚ)
  va : String
  yText : ℚ

/-- Comparison used by `milestones.sort_values("Start")`. -/
def mLt (a b : MRow) : Bool := decide (a.start < b.start)

/-- The milestone rows in chronological order
(`milestones.sort_values("Start")`). -/
def msSorted (df : List MRow) : List MRow :=
  pySortBy mLt (df.filter (fun r => r.milestone))

/-- The tiled stagger levels:
`np.tile(seq, int(np.ceil(n / len(seq))))[:n]` with `len(seq) = 6`. -/
def msLevels (n : ℕ) : List ℚ :=
  (List.replicate ((n + 5) / 6) LEVEL_SEQUENCE).flatten.take n

/-- The per-event body of the `for d, task, level in zip(...)` loop of
`plot_milestones`. -/
def mkMItem (p : MRow × ℚ) : MItem :=
  { x := p.1.start, level := p.2,
    connector := [(p.1.start, 0), (p.1.start, p.2)],
    va := if 0 < p.2 then "bottom" else "top",
    yText := p.2 + (if 0 < p.2 then 35 / 100 else -(35 / 100)) }

/-- Embedding of the per-event work of `plot_milestones`: filter to
milestones, sort by `Start`, tile `LEVEL_SEQUENCE` to the event count, and
produce marker, connector and label placement per event. -/
def milestoneItems (df : List MRow) : List MItem :=
  ((msSorted df).zip (msLevels (msSorted df).length)).map mkMItem

/-! ## Lemmas about the `nodes` dict -/

/-- The last value bound to `k` in the input sequence, if any. -/
def lastVal (df : List (String × String)) (k : String) : Option String :=
  ((df.filter (fun r => r.1 = k)).getLast?).map Prod.snd

theorem dictInsert_keys (m : List (String × String)) (k v : String) :
    (dictInsert m k v).map Prod.fst =
      if m.any (fun p => p.1 = k) then m.map Prod.fst else m.map Prod.fst ++ [k] := by
  unfold dictInsert
  split
  · rw [List.map_map]
    congr 1
    funext p
    by_cases hp : p.1 = k <;> simp [hp]
  · simp

theorem find?_overwrite_hit (m : List (String × String)) (k v : String)
    (h : m.any (fun p => p.1 = k) = true) :
    (m.map (fun p => if p.1 = k then (k, v) else p)).find? (fun p => p.1 = k) = some (k, v) := by
  induction m with
  | nil => simp at h
  | cons p m ih =>
    by_cases hp : p.1 = k
    · rw [List.map_cons, if_pos hp, List.find?_cons_of_pos _ (by simp)]
    · rw [List.map_cons, if_neg hp, List.find?_cons_of_neg _ (by simpa using hp)]
      apply ih
      simpa [hp] using h

theorem find?_overwrite_miss (m : List (String × String)) (k v q : String) (hqk : k ≠ q) :
    (m.map (fun p => if p.1 = k then (k, v) else p)).find? (fun p => p.1 = q) =
      m.find? (fun p => p.1 = q) := by
  induction m with
  | nil => simp
  | cons p m ih =>
    by_cases hp : p.1 = k
    · have hq : ¬ p.1 = q := fun hc => hqk (hp.symm.trans hc)
      rw [List.map_cons, if_pos hp, List.find?_cons_of_neg _ (by simpa using hqk),
        List.find?_cons_of_neg _ (by simpa using hq)]
      exact ih
    · by_cases hq : p.1 = q
      · rw [List.map_cons, if_neg hp, List.find?_cons_of_pos _ (by simpa using hq),
          List.find?_cons_of_pos _ (by simpa using hq)]
      · rw [List.map_cons, if_neg hp, List.find?_cons_of_neg _ (by simpa using hq),
          List.find?_cons_of_neg _ (by simpa using hq)]
        exact ih

theorem dictLookup_insert (m : List (String × String)) (k v q : String) :
    dictLookup (dictInsert m k v) q =
      if k = q then some v else dictLookup m q := by
  unfold dictInsert
  by_cases hany : (m.any fun p => decide (p.1 = k)) = true
  · rw [if_pos hany]
    by_cases hkq : k = q
    · subst hkq
      unfold dictLookup
      rw [find?_overwrite_hit m k v hany, if_pos rfl]
    · unfold dictLookup
      rw [find?_overwrite_miss m k v q hkq, if_neg hkq]
  · rw [if_neg hany]
    by_cases hkq : k = q
    · subst hkq
      unfold dictLookup
      rw [List.find?_append]
      have hnone : m.find? (fun p => decide (p.1 = k)) = none := by
        rw [List.find?_eq_none]
        intro p hp
        simp only [decide_eq_true_eq]
        intro hc
        exact hany (List.any_eq_true.mpr ⟨p, hp, by simp [hc]⟩)
      have h2 : ([(k, v)].find? fun p => decide (p.1 = k)) = some (k, v) :=
        List.find?_cons_of_pos _ (by simp)
      rw [if_pos rfl]
      simp [hnone, h2]
    · unfold dictLookup
      rw [List.find?_append, if_neg hkq]
      have h1 : ([(k, v)].find? fun p => decide (p.1 = q)) = none := by
        simp [hkq]
      rw [h1]
      cases hm : m.find? (fun p => decide (p.1 = q)) <;> simp

theorem buildNodes_append (df : List (String × String)) (p : String × String) :
    buildNodes (df ++ [p]) = dictInsert (buildNodes df) p.1 p.2 := by
  unfold buildNodes
  rw [List.foldl_append]
  rfl

theorem dictLookup_buildNodes (df : List (String × String)) (q : String) :
    dictLookup (buildNodes df) q = lastVal df q := by
  induction df using List.reverseRecOn with
  | nil => rfl
  | append_singleton ds p ih =>
    rw [buildNodes_append, dictLookup_insert]
    unfold lastVal
    rw [List.filter_append]
    by_cases hp : p.1 = q
    · have hf : List.filter (fun r => decide (r.1 = q)) [p] = [p] := by simp [hp]
      rw [hf, if_pos hp, List.getLast?_concat]
      rfl
    · have hf : List.filter (fun r => decide (r.1 = q)) [p] = [] := by simp [hp]
      rw [hf, List.append_nil, if_neg hp]
      exact ih

theorem nodeIds_nodup (df : List (String × String)) : (nodeIds df).Nodup := by
  unfold nodeIds buildNodes
  suffices h : ∀ m : List (String × String), (m.map Prod.fst).Nodup →
      ((df.foldl (fun m r => dictInsert m r.1 r.2) m).map Prod.fst).Nodup by
    exact h [] (by simp)
  induction df with
  | nil => intro m hm; simpa using hm
  | cons r df ih =>
    intro m hm
    simp only [List.foldl_cons]
    apply ih
    rw [dictInsert_keys]
    split
    · exact hm
    · rename_i hany
      refine List.Nodup.append hm (by simp) ?_
      intro a ha hb
      simp only [List.mem_singleton] at hb
      subst hb
      rcases List.mem_map.mp ha with ⟨p, hp, hfst⟩
      have hcontra : (m.any fun pr => pr.1 = r.1) = true :=
        List.any_eq_true.mpr ⟨p, hp, by simp [hfst]⟩
      exact hany hcontra

/-! ## C6: duplicate ids -/

/-- Counterexample to C6: feeding the same id twice does not fail — there is
no error path in `build_hierarchy` at all — the dict comprehension silently
keeps the later title. -/
theorem build_nodes_duplicate_cex :
    buildNodes [("1", "a"), ("1", "b")] = [("1", "b")] ∧
    dictLookup (buildNodes [("1", "a"), ("1", "b")]) "1" = some "b" ∧
    nodeIds [("1", "a"), ("1", "b")] = ["1"] := by
  refine ⟨?_, ?_, ?_⟩ <;> decide

/-- Amended C6: on duplicate ids `build_hierarchy` does not fail; the `nodes`
dict ends up with one entry per distinct id, bound to the **last** title seen
for that id (silent overwrite). -/
theorem build_nodes_overwrite (df : List (String × String)) (k : String) :
    dictLookup (buildNodes df) k = lastVal df k ∧ (nodeIds df).Nodup :=
  ⟨dictLookup_buildNodes df k, nodeIds_nodup df⟩

/-! ## C7: missing Gantt predecessor -/

/-- Amended C7: a dependency edge whose predecessor id is not in `id_index`
contributes zero connector paths and the run completes, but nothing is
recorded for it: the warning list `plot_gantt` returns is empty. -/
theorem gantt_missing_pred_dropped (rows : List GRow) (i : ℕ) (start : ℚ) (dep : String)
    (h : idIndex rows dep = none) :
    pathsOfDep rows i start dep = [] ∧ ganttWarnings rows = [] := by
  unfold pathsOfDep
  rw [h]
  exact ⟨rfl, rfl⟩

/-! ## C9: milestone stagger levels -/

theorem flatten_replicate_getElem? (s : List α) :
    ∀ m i, i < m * s.length →
      ((List.replicate m s).flatten)[i]? = s[i % s.length]? := by
  intro m
  induction m with
  | zero => intro i h; simp at h
  | succ m ih =>
    intro i h
    rw [List.replicate_succ, List.flatten_cons]
    by_cases hi : i < s.length
    · rw [List.getElem?_append, if_pos hi, Nat.mod_eq_of_lt hi]
    · push_neg at hi
      have hsm : (m + 1) * s.length = m * s.length + s.length := by ring
      have h2 : i - s.length < m * s.length := by omega
      rw [List.getElem?_append, if_neg (by omega), ih _ h2, Nat.mod_eq_sub_mod hi]

theorem msLevels_length (n : ℕ) : (msLevels n).length = n := by
  unfold msLevels
  have hlen : (List.replicate ((n + 5) / 6) LEVEL_SEQUENCE).flatten.length =
      ((n + 5) / 6) * 6 := by
    simp [List.length_flatten, List.map_replicate, List.sum_replicate, smul_eq_mul,
      LEVEL_SEQUENCE]
  rw [List.length_take, hlen]
  omega

theorem msLevels_getElem (n i : ℕ) (hin : i < n) :
    (msLevels n).get ⟨i, by rw [msLevels_length]; exact hin⟩ =
      LEVEL_SEQUENCE.get ⟨i % 6, Nat.mod_lt i (by norm_num)⟩ := by
  have hflat : i < ((n + 5) / 6) * 6 := by omega
  have h1 : (msLevels n)[i]? = LEVEL_SEQUENCE[i % 6]? := by
    unfold msLevels
    rw [List.getElem?_take_of_lt hin,
      flatten_replicate_getElem? LEVEL_SEQUENCE ((n + 5) / 6) i
        (by simpa [LEVEL_SEQUENCE] using hflat)]
    rfl
  rw [List.getElem?_eq_getElem (by rw [msLevels_length]; exact hin),
    List.getElem?_eq_getElem (by simp [LEVEL_SEQUENCE]; omega)] at h1
  simpa [List.get_eq_getElem] using h1

/-- C9: in `plot_milestones`, the event at position `i` of the chronologically
sorted milestone list gets stagger level `LEVEL_SEQUENCE[i % 6]`, its
connector is the straight vertical segment from the axis `y = 0` to that
level at the event's x, and the label's vertical alignment is `bottom` for a
positive level and `top` otherwise. -/
theorem milestone_stagger_assignment (df : List MRow) (i : ℕ)
    (h : i < (milestoneItems df).length) :
    ((milestoneItems df).get ⟨i, h⟩).level =
      LEVEL_SEQUENCE.get ⟨i % 6, Nat.mod_lt i (by norm_num)⟩ ∧
    ((milestoneItems df).get ⟨i, h⟩).connector =
      [(((milestoneItems df).get ⟨i, h⟩).x, 0),
       (((milestoneItems df).get ⟨i, h⟩).x, ((milestoneItems df).get ⟨i, h⟩).level)] ∧
    ((milestoneItems df).get ⟨i, h⟩).va =
      (if 0 < ((milestoneItems df).get ⟨i, h⟩).level then "bottom" else "top") := by
  have hlen : (milestoneItems df).length =
      (msSorted df).length := by
    unfold milestoneItems
    rw [List.length_map, List.length_zip, msLevels_length]
    omega
  have hin : i < (msSorted df).length := by rw [hlen] at h; exact h
  have hmi : (milestoneItems df).get ⟨i, h⟩ =
      mkMItem ((msSorted df).get ⟨i, hin⟩,
        (msLevels (msSorted df).length).get ⟨i, by rw [msLevels_length]; exact hin⟩) := by
    simp only [List.get_eq_getElem]
    unfold milestoneItems
    rw [List.getElem_map, List.getElem_zip]
  rw [hmi]
  refine ⟨?_, rfl, rfl⟩
  unfold mkMItem
  simp only []
  exact msLevels_getElem (msSorted df).length i hin

/-- Two milestone events; after sorting by start, position 1 holds the later
event. -/
def mrows0 : List MRow := [⟨"a", 5, true⟩, ⟨"b", 3, true⟩]

theorem milestone_stagger_assignment_witness :
    1 < (milestoneItems mrows0).length ∧
    ((milestoneItems mrows0).get ⟨1, by decide⟩).level = -3 ∧
    ((milestoneItems mrows0).get ⟨1, by decide⟩).va = "top" := by
  have h := milestone_stagger_assignment mrows0 1 (by decide)
  exact ⟨by decide, h.1.trans (by decide), h.2.2.trans (by decide)⟩

/-! ## C7 witness and counterexample -/

/-- Two Gantt rows; the second one references the predecessor id "B", which
no row carries. -/
def grows0 : List GRow := [⟨some "A", "t1", 0, 5, false, []⟩, ⟨none, "t2", 5, 8, false, ["B"]⟩]

theorem gantt_missing_pred_dropped_witness :
    idIndex grows0 "B" = none ∧
    pathsOfDep grows0 1 5 "B" = [] ∧ ganttWarnings grows0 = [] := by
  exact ⟨by decide, gantt_missing_pred_dropped grows0 1 5 "B" (by decide)⟩

/-- Counterexample to C7 as stated: on a dataset with a dangling dependency
the run completes with zero connector paths, but nothing at all is recorded
or returned for the dropped edge — the warning list is empty, not populated
with a `DataQualityWarning`. -/
theorem gantt_missing_pred_cex :
    ganttConnectorPaths grows0 = [] ∧ ganttWarnings grows0 = [] := by
  exact ⟨by decide, rfl⟩

/-! ## C4: `id_key` ordering -/

theorem keyLt_append_same (p : List ℤ) (a b : List ℤ) :
    keyLt (p ++ a) (p ++ b) = keyLt a b := by
  induction p with
  | nil => rfl
  | cons x p ih => simp [keyLt, lt_irrefl, ih]

theorem keyLt_irrefl (l : List ℤ) : keyLt l l = false := by
  induction l with
  | nil => rfl
  | cons x l ih => simp [keyLt, lt_irrefl, ih]

/-- Amended C4, in three parts.  (1) For ids differing in exactly one
segment, with both segments parsing as integers, the key order is exactly the
integer order — numeric dotted-decimal order regardless of string length.
(2) `id_key` is total: it returns one tuple entry per dotted segment for
every input string.  (3) A malformed segment sorts after any numeric sibling
whose value is below the `10^6` sentinel (the unqualified claim is false:
a numeric segment `≥ 10^6` sorts at or after the sentinel). -/
theorem id_key_order_amended :
    (∀ (a b : String) (pre post : List (List Char)) (x y : List Char) (vx vy : ℤ),
      splitDot a.data = pre ++ x :: post → splitDot b.data = pre ++ y :: post →
      pyInt? x = some vx → pyInt? y = some vy →
      (keyLt (id_key a) (id_key b) = true ↔ vx < vy)) ∧
    (∀ s : String, (id_key s).length = depth s) ∧
    (∀ (a b : String) (pre post : List (List Char)) (x y : List Char) (vy : ℤ),
      splitDot a.data = pre ++ x :: post → splitDot b.data = pre ++ y :: post →
      pyInt? x = none → pyInt? y = some vy → vy < 10 ^ 6 →
      keyLt (id_key b) (id_key a) = true) := by
  refine ⟨?_, ?_, ?_⟩
  · intro a b pre post x y vx vy ha hb hx hy
    unfold id_key segsKey
    rw [ha, hb, List.map_append, List.map_append, keyLt_append_same,
      List.map_cons, List.map_cons]
    have hvx : segVal x = vx := by unfold segVal; rw [hx]
    have hvy : segVal y = vy := by unfold segVal; rw [hy]
    rw [hvx, hvy]
    rcases lt_trichotomy vx vy with hlt | heq | hgt
    · simp [keyLt, hlt]
    · subst heq
      simp [keyLt, lt_irrefl, keyLt_irrefl]
    · simp [keyLt, hgt, not_lt.mpr (le_of_lt hgt), lt_asymm hgt]
  · intro s
    unfold id_key segsKey depth
    rw [List.length_map]
  · intro a b pre post x y vy ha hb hx hy hlt
    unfold id_key segsKey
    rw [ha, hb, List.map_append, List.map_append, keyLt_append_same,
      List.map_cons, List.map_cons]
    have hvx : segVal x = 10 ^ 6 := by unfold segVal; rw [hx]
    have hvy : segVal y = vy := by unfold segVal; rw [hy]
    rw [hvx, hvy]
    have hlt2 : vy < 1000000 := by norm_num at hlt; exact hlt
    simp [keyLt, hlt2]

theorem id_key_order_amended_witness :
    keyLt (id_key "2.9") (id_key "2.10") = true ∧
    (id_key "7.junk").length = depth "7.junk" ∧
    keyLt (id_key "3.5") (id_key "3.x") = true := by
  refine ⟨?_, id_key_order_amended.2.1 "7.junk", ?_⟩
  · exact (id_key_order_amended.1 "2.9" "2.10" [['2']] [] ['9'] ['1', '0'] 9 10
      (by decide) (by decide) (by decide) (by decide)).mpr (by norm_num)
  · exact id_key_order_amended.2.2 "3.x" "3.5" [['3']] [] ['x'] ['5'] 5
      (by decide) (by decide) (by decide) (by decide) (by norm_num)

/-- Counterexample to C4 as stated: the malformed segment "x" does **not**
sort after the well-formed numeric sibling "2000000", because the sentinel is
only `10^6`: the numeric key is larger, so the malformed id sorts first. -/
theorem id_key_sentinel_cex :
    pyInt? "x".data = none ∧ pyInt? "2000000".data = some 2000000 ∧
    keyLt (id_key "1.2000000") (id_key "1.x") = false ∧
    keyLt (id_key "1.x") (id_key "1.2000000") = true := by
  refine ⟨?_, ?_, ?_, ?_⟩ <;> decide

/-! ## C1 and C2: the wrapping loop -/

theorem bsearchGo_fuel_stable (fits : ℕ → Bool) :
    ∀ (fuel lo hi best : ℕ), 1 ≤ lo → hi + 1 - lo ≤ fuel →
      bsearchGo fits (fuel + 1) lo hi best = bsearchGo fits fuel lo hi best := by
  intro fuel
  induction fuel with
  | zero =>
    intro lo hi best _ h
    have hlh : ¬ lo ≤ hi := by omega
    unfold bsearchGo
    rw [if_neg hlh]
  | succ fuel ih =>
    intro lo hi best hlo h
    conv_lhs => unfold bsearchGo
    conv_rhs => unfold bsearchGo
    by_cases hlh : lo ≤ hi
    · rw [if_pos hlh, if_pos hlh]
      dsimp only
      by_cases hf : fits ((lo + hi) / 2) = true
      · rw [if_pos hf, if_pos hf]
        exact ih _ _ _ (by omega) (by omega)
      · rw [if_neg hf, if_neg hf]
        exact ih _ _ _ (by omega) (by omega)
    · rw [if_neg hlh, if_neg hlh]

/-- The fuel `token.length + 1` that `wrapGo` hands to the binary search is
enough: giving the search any more fuel cannot change its result, so the
bounded recursion computes exactly what the unbounded Python loop does. -/
theorem bsearchGo_fuel_irrelevant (fits : ℕ → Bool) (len best : ℕ) :
    ∀ extra, bsearchGo fits (len + 1 + extra) 1 len best =
      bsearchGo fits (len + 1) 1 len best := by
  intro extra
  induction extra with
  | zero => rfl
  | succ extra ih =>
    have hst := bsearchGo_fuel_stable fits (len + 1 + extra) 1 len best (by omega)
      (by omega)
    calc bsearchGo fits (len + 1 + (extra + 1)) 1 len best
        = bsearchGo fits (len + 1 + extra + 1) 1 len best := by ring_nf
      _ = bsearchGo fits (len + 1 + extra) 1 len best := hst
      _ = bsearchGo fits (len + 1) 1 len best := ih

theorem trimLoop_fuel_stable (measure : List Char → ℚ) (innerW : ℚ) :
    ∀ (fuel : ℕ) (last : List Char), last.length ≤ fuel →
      trimLoop measure innerW (fuel + 1) last = trimLoop measure innerW fuel last := by
  intro fuel
  induction fuel with
  | zero =>
    intro last h
    have hnil : last = [] := List.length_eq_zero.mp (by omega)
    subst hnil
    unfold trimLoop
    by_cases hfit : measure ([] ++ [ellChar]) ≤ innerW
    · rw [if_pos hfit]
    · rw [if_neg hfit]
      rfl
  | succ fuel ih =>
    intro last h
    conv_lhs => unfold trimLoop
    conv_rhs => unfold trimLoop
    by_cases hfit : measure (last ++ [ellChar]) ≤ innerW
    · rw [if_pos hfit, if_pos hfit]
    · rw [if_neg hfit, if_neg hfit]
      by_cases hemp : last.isEmpty = true
      · rw [if_pos hemp, if_pos hemp]
      · rw [if_neg hemp, if_neg hemp]
        apply ih
        rw [List.length_dropLast]
        omega

/-- The fuel `last.length + 1` used by `ellipsize` is enough for the
character-trimming loop. -/
theorem trimLoop_fuel_irrelevant (measure : List Char → ℚ) (innerW : ℚ)
    (last : List Char) :
    ∀ extra, trimLoop measure innerW (last.length + 1 + extra) last =
      trimLoop measure innerW (last.length + 1) last := by
  intro extra
  induction extra with
  | zero => rfl
  | succ extra ih =>
    have hst := trimLoop_fuel_stable measure innerW (last.length + 1 + extra) last
      (by omega)
    calc trimLoop measure innerW (last.length + 1 + (extra + 1)) last
        = trimLoop measure innerW (last.length + 1 + extra + 1) last := by ring_nf
      _ = trimLoop measure innerW (last.length + 1 + extra) last := hst
      _ = trimLoop measure innerW (last.length + 1) last := ih

theorem bsearchGo_fits (fits : ℕ → Bool) :
    ∀ (fuel lo hi best : ℕ), fits best = true →
      fits (bsearchGo fits fuel lo hi best) = true := by
  intro fuel
  induction fuel with
  | zero => intro lo hi best h; simpa [bsearchGo] using h
  | succ fuel ih =>
    intro lo hi best h
    unfold bsearchGo
    by_cases hlh : lo ≤ hi
    · rw [if_pos hlh]
      by_cases hf : fits ((lo + hi) / 2) = true
      · rw [if_pos hf]
        exact ih _ _ _ hf
      · rw [if_neg hf]
        exact ih _ _ _ h
    · rw [if_neg hlh]
      exact h

theorem splitWsGo_ne_nil :
    ∀ (cs acc w : List Char), w ∈ splitWsGo acc cs → w ≠ [] := by
  intro cs
  induction cs with
  | nil =>
    intro acc w hw
    unfold splitWsGo at hw
    by_cases ha : acc.isEmpty = true
    · rw [if_pos ha] at hw
      simp at hw
    · rw [if_neg ha] at hw
      simp only [List.mem_singleton] at hw
      subst hw
      intro hc
      exact ha (by simp [List.reverse_eq_nil_iff.mp hc])
  | cons c cs ih =>
    intro acc w hw
    unfold splitWsGo at hw
    by_cases hc : isWs c = true
    · rw [if_pos hc] at hw
      by_cases ha : acc.isEmpty = true
      · rw [if_pos ha] at hw
        exact ih [] w hw
      · rw [if_neg ha] at hw
        rcases List.mem_cons.mp hw with h | h
        · subst h
          intro hcon
          exact ha (by simp [List.reverse_eq_nil_iff.mp hcon])
        · exact ih [] w h
    · rw [if_neg hc] at hw
      exact ih (c :: acc) w hw

theorem muStep_a (A n fuel : ℕ) (h : A * (n + 1 + 1) + (n + 1) + 1 ≤ fuel + 1) :
    A * (n + 1) + n + 1 ≤ fuel := by
  have he : A * (n + 1 + 1) = A * (n + 1) + A := by ring
  omega

theorem muStep_b (A n fuel : ℕ) (hA : 1 ≤ A)
    (h : A * (n + 1 + 1) + (n + 1) + 1 ≤ fuel + 1) :
    A - 1 ≥ 0 ∧ (A - 1) * (n + 1 + 1) + (n + 1) + 1 ≤ fuel := by
  refine ⟨Nat.zero_le _, ?_⟩
  obtain ⟨B, rfl⟩ : ∃ B, A = B + 1 := ⟨A - 1, by omega⟩
  have he : (B + 1) * (n + 1 + 1) = B * (n + 1 + 1) + n + 1 + 1 := by ring
  have he2 : B + 1 - 1 = B := by omega
  rw [he2]
  omega

theorem muStep_c (A n fuel : ℕ) (hA : 1 ≤ A)
    (h : A * (n + 1 + 1) + (n + 1) + 1 ≤ fuel + 1) :
    (A - 1) * (n + 1) + n + 1 ≤ fuel := by
  have hb := (muStep_b A n fuel hA h).2
  have he : (A - 1) * (n + 1 + 1) = (A - 1) * (n + 1) + (A - 1) := by ring
  omega

/-- The termination measure `wrapGoMeasure` strictly decreases at every
iteration of the wrapping loop, so once the fuel reaches it, one more unit of
fuel cannot change the result. -/
theorem wrapGo_fuel_stable (measure : List Char → ℚ) (innerW : ℚ) (maxFit : ℕ) :
    ∀ (fuel : ℕ) (ws : List (List Char)) (current : List Char)
      (lines : List (List Char)),
      wrapGoMeasure maxFit ws lines ≤ fuel →
      wrapGo measure innerW maxFit (fuel + 1) ws current lines =
        wrapGo measure innerW maxFit fuel ws current lines := by
  intro fuel
  induction fuel with
  | zero =>
    intro ws current lines h
    exfalso
    unfold wrapGoMeasure at h
    omega
  | succ fuel ih =>
    intro ws current lines h
    cases ws with
    | nil => rfl
    | cons w rest =>
      unfold wrapGoMeasure at h
      simp only [List.length_cons] at h
      conv_lhs => unfold wrapGo
      conv_rhs => unfold wrapGo
      dsimp only
      by_cases hfull : lines.length < maxFit
      · rw [if_pos hfull, if_pos hfull]
        have hA : 1 ≤ maxFit - lines.length := by omega
        by_cases hfit :
            measure (if current.isEmpty then w else pyStrip (current ++ ' ' :: w)) ≤ innerW
        · rw [if_pos hfit, if_pos hfit]
          apply ih
          unfold wrapGoMeasure
          exact muStep_a (maxFit - lines.length) rest.length fuel h
        · rw [if_neg hfit, if_neg hfit]
          by_cases hce : current.isEmpty = true
          · rw [if_pos hce, if_pos hce]
            by_cases hrem : (w.drop (bsearchGo (fun m => decide (measure (w.take m) ≤ innerW))
                (w.length + 1) 1 w.length 1)).isEmpty = true
            · rw [if_pos hrem, if_pos hrem]
              apply ih
              unfold wrapGoMeasure
              have hlen : (lines ++ [w.take (bsearchGo
                  (fun m => decide (measure (w.take m) ≤ innerW))
                  (w.length + 1) 1 w.length 1)]).length = lines.length + 1 := by
                simp
              rw [hlen, ← Nat.sub_sub]
              exact muStep_c (maxFit - lines.length) rest.length fuel hA h
            · rw [if_neg hrem, if_neg hrem]
              apply ih
              unfold wrapGoMeasure
              have hlen : (lines ++ [w.take (bsearchGo
                  (fun m => decide (measure (w.take m) ≤ innerW))
                  (w.length + 1) 1 w.length 1)]).length = lines.length + 1 := by
                simp
              rw [hlen, ← Nat.sub_sub]
              simp only [List.length_cons]
              exact (muStep_b (maxFit - lines.length) rest.length fuel hA h).2
          · rw [if_neg hce, if_neg hce]
            apply ih
            unfold wrapGoMeasure
            have hlen : (lines ++ [current]).length = lines.length + 1 := by simp
            rw [hlen, ← Nat.sub_sub]
            simp only [List.length_cons]
            exact (muStep_b (maxFit - lines.length) rest.length fuel hA h).2
      · rw [if_neg hfull, if_neg hfull]

/-- The fuel `wrapText` provides equals the initial value of the termination
measure, so any surplus fuel leaves the loop's result unchanged: the bounded
recursion computes exactly the unbounded Python loop. -/
theorem wrapGo_fuel_irrelevant (measure : List Char → ℚ) (innerW : ℚ) (maxFit : ℕ)
    (words : List (List Char)) :
    ∀ extra, wrapGo measure innerW maxFit
        (maxFit * (words.length + 1) + words.length + 1 + extra) words [] [] =
      wrapGo measure innerW maxFit
        (maxFit * (words.length + 1) + words.length + 1) words [] [] := by
  intro extra
  induction extra with
  | zero => rfl
  | succ extra ih =>
    have hmu : wrapGoMeasure maxFit words [] ≤
        maxFit * (words.length + 1) + words.length + 1 + extra := by
      unfold wrapGoMeasure
      simp only [List.length_nil, Nat.sub_zero]
      omega
    have harg : maxFit * (words.length + 1) + words.length + 1 + (extra + 1) =
        (maxFit * (words.length + 1) + words.length + 1 + extra) + 1 := by omega
    rw [harg, wrapGo_fuel_stable measure innerW maxFit _ words [] [] hmu, ih]

theorem wrapGo_inv (measure : List Char → ℚ) (innerW : ℚ) (maxFit : ℕ)
    (h1 : ∀ c : Char, measure [c] ≤ innerW) :
    ∀ (fuel : ℕ) (ws : List (List Char)) (current : List Char) (lines : List (List Char)),
      (∀ w ∈ ws, w ≠ []) →
      (current = [] ∨ measure current ≤ innerW) →
      (∀ l ∈ lines, measure l ≤ innerW) →
      lines.length ≤ maxFit →
      ((wrapGo measure innerW maxFit fuel ws current lines).2.1 = [] ∨
        measure (wrapGo measure innerW maxFit fuel ws current lines).2.1 ≤ innerW) ∧
      (∀ l ∈ (wrapGo measure innerW maxFit fuel ws current lines).2.2,
        measure l ≤ innerW) ∧
      (wrapGo measure innerW maxFit fuel ws current lines).2.2.length ≤ maxFit := by
  intro fuel
  induction fuel with
  | zero =>
    intro ws current lines _ hcur hlines hlen
    exact ⟨hcur, hlines, hlen⟩
  | succ fuel ih =>
    intro ws current lines hws hcur hlines hlen
    cases ws with
    | nil => exact ⟨hcur, hlines, hlen⟩
    | cons w rest =>
      have hwne : w ≠ [] := hws w (List.mem_cons_self w rest)
      have hrest : ∀ x ∈ rest, x ≠ [] := fun x hx => hws x (List.mem_cons_of_mem w hx)
      unfold wrapGo
      dsimp only
      by_cases hfull : lines.length < maxFit
      · rw [if_pos hfull]
        by_cases hfit :
            measure (if current.isEmpty then w else pyStrip (current ++ ' ' :: w)) ≤ innerW
        · rw [if_pos hfit]
          exact ih rest _ lines hrest (Or.inr hfit) hlines hlen
        · rw [if_neg hfit]
          by_cases hce : current.isEmpty = true
          · rw [if_pos hce]
            have hbest :
                measure (w.take (bsearchGo (fun m => decide (measure (w.take m) ≤ innerW))
                  (w.length + 1) 1 w.length 1)) ≤ innerW := by
              have hbase : decide (measure (w.take 1) ≤ innerW) = true := by
                cases w with
                | nil => exact absurd rfl hwne
                | cons c cs =>
                  have ht : (c :: cs).take 1 = [c] := rfl
                  rw [ht]
                  exact decide_eq_true (h1 c)
              exact of_decide_eq_true
                (bsearchGo_fits (fun m => decide (measure (w.take m) ≤ innerW))
                  (w.length + 1) 1 w.length 1 hbase)
            have hlines2 : ∀ l ∈ lines ++
                [w.take (bsearchGo (fun m => decide (measure (w.take m) ≤ innerW))
                  (w.length + 1) 1 w.length 1)], measure l ≤ innerW := by
              intro l hl
              rcases List.mem_append.mp hl with hm | hm
              · exact hlines l hm
              · rw [List.mem_singleton.mp hm]
                exact hbest
            have hlen2 : (lines ++
                [w.take (bsearchGo (fun m => decide (measure (w.take m) ≤ innerW))
                  (w.length + 1) 1 w.length 1)]).length ≤ maxFit := by
              simp only [List.length_append, List.length_cons, List.length_nil]
              omega
            by_cases hrem : (w.drop (bsearchGo (fun m => decide (measure (w.take m) ≤ innerW))
                (w.length + 1) 1 w.length 1)).isEmpty = true
            · rw [if_pos hrem]
              exact ih rest [] _ hrest (Or.inl rfl) hlines2 hlen2
            · rw [if_neg hrem]
              refine ih _ [] _ ?_ (Or.inl rfl) hlines2 hlen2
              intro x hx
              rcases List.mem_cons.mp hx with hm | hm
              · subst hm
                intro hcon
                exact hrem (by simp [hcon])
              · exact hrest x hm
          · rw [if_neg hce]
            refine ih _ [] _ hws (Or.inl rfl) ?_ ?_
            · intro l hl
              rcases List.mem_append.mp hl with hm | hm
              · exact hlines l hm
              · rw [List.mem_singleton.mp hm]
                rcases hcur with h0 | h0
                · exact absurd (by simp [h0]) hce
                · exact h0
            · simp only [List.length_append, List.length_cons, List.length_nil]
              omega
      · rw [if_neg hfull]
        exact ⟨hcur, hlines, hlen⟩

theorem trimLoop_spec (measure : List Char → ℚ) (innerW : ℚ) :
    ∀ (fuel : ℕ) (last : List Char), last.length < fuel →
      measure (trimLoop measure innerW fuel last ++ [ellChar]) ≤ innerW ∨
        trimLoop measure innerW fuel last = [] := by
  intro fuel
  induction fuel with
  | zero => intro last h; omega
  | succ fuel ih =>
    intro last h
    unfold trimLoop
    by_cases hfit : measure (last ++ [ellChar]) ≤ innerW
    · rw [if_pos hfit]
      exact Or.inl hfit
    · rw [if_neg hfit]
      by_cases hemp : last.isEmpty = true
      · rw [if_pos hemp]
        exact Or.inr (List.isEmpty_iff.mp hemp)
      · rw [if_neg hemp]
        apply ih
        have hne : last ≠ [] := fun hc => hemp (by simp [hc])
        have hpos : 0 < last.length := List.length_pos.mpr hne
        rw [List.length_dropLast]
        omega

theorem ellipsize_fits (measure : List Char → ℚ) (innerW : ℚ)
    (h1 : ∀ c : Char, measure [c] ≤ innerW) (last : List Char) :
    measure (ellipsize measure innerW last) ≤ innerW := by
  unfold ellipsize
  dsimp only
  rcases trimLoop_spec measure innerW (last.length + 1) last (by omega) with h | h
  · by_cases hemp : (trimLoop measure innerW (last.length + 1) last).isEmpty = true
    · rw [if_pos hemp]
      exact h1 ellChar
    · rw [if_neg hemp]
      exact h
  · rw [h]
    simpa using h1 ellChar

theorem flushLines_spec (measure : List Char → ℚ) (innerW : ℚ) (maxFit : ℕ)
    (current : List Char) (lines0 : List (List Char))
    (hcur : current = [] ∨ measure current ≤ innerW)
    (hlines : ∀ l ∈ lines0, measure l ≤ innerW)
    (hlen : lines0.length ≤ maxFit) :
    (∀ l ∈ flushLines maxFit current lines0, measure l ≤ innerW) ∧
    (flushLines maxFit current lines0).length ≤ maxFit := by
  unfold flushLines
  split
  · rename_i hc
    constructor
    · intro l hl
      rcases List.mem_append.mp hl with hm | hm
      · exact hlines l hm
      · rw [List.mem_singleton.mp hm]
        rcases hcur with h0 | h0
        · exact absurd (by simp [h0]) hc.1
        · exact h0
    · simp only [List.length_append, List.length_cons, List.length_nil]
      omega
  · exact ⟨hlines, hlen⟩

theorem capLines_spec (measure : List Char → ℚ) (innerW : ℚ) (maxFit : ℕ)
    (l : List (List Char)) (hl : ∀ x ∈ l, measure x ≤ innerW) :
    (∀ x ∈ capLines maxFit l, measure x ≤ innerW) ∧
    (capLines maxFit l).length ≤ maxFit := by
  unfold capLines
  split
  · refine ⟨fun x hx => hl x (List.mem_of_mem_take hx), ?_⟩
    rw [List.length_take]
    omega
  · rename_i hc
    exact ⟨hl, by omega⟩

theorem applyEllipsis_spec (measure : List Char → ℚ) (innerW : ℚ) (t : Bool)
    (lines2 : List (List Char)) (h1 : ∀ c : Char, measure [c] ≤ innerW)
    (hl : ∀ x ∈ lines2, measure x ≤ innerW) :
    (∀ x ∈ applyEllipsis measure innerW t lines2, measure x ≤ innerW) ∧
    (applyEllipsis measure innerW t lines2).length ≤ lines2.length := by
  unfold applyEllipsis
  split
  · rename_i hc
    have hne : lines2 ≠ [] := by
      intro hcon
      rw [hcon] at hc
      simp at hc
    constructor
    · intro x hx
      rcases List.mem_append.mp hx with hm | hm
      · exact hl x (List.mem_of_mem_dropLast hm)
      · rw [List.mem_singleton.mp hm]
        exact ellipsize_fits measure innerW h1 _
    · simp only [List.length_append, List.length_cons, List.length_nil,
        List.length_dropLast]
      have : 0 < lines2.length := List.length_pos.mpr hne
      omega
  · exact ⟨hl, le_refl _⟩

theorem wrapText_spec (measure : List Char → ℚ) (innerW : ℚ) (maxFit : ℕ)
    (text : List Char) (h1 : ∀ c : Char, measure [c] ≤ innerW) :
    (∀ l ∈ (wrapText measure innerW maxFit text).1, measure l ≤ innerW) ∧
    (wrapText measure innerW maxFit text).1.length ≤ maxFit := by
  unfold wrapText wrapFinish
  dsimp only
  have hinv := wrapGo_inv measure innerW maxFit h1
    (maxFit * ((splitWs text).length + 1) + (splitWs text).length + 1)
    (splitWs text) [] []
    (fun w hw => splitWsGo_ne_nil text [] w hw)
    (Or.inl rfl) (by intro l hl; simp at hl) (Nat.zero_le _)
  have hflush := flushLines_spec measure innerW maxFit _ _ hinv.1 hinv.2.1 hinv.2.2
  have hcap := capLines_spec measure innerW maxFit _ hflush.1
  have happ := applyEllipsis_spec measure innerW
    (truncFlag maxFit
      (wrapGo measure innerW maxFit
        (maxFit * ((splitWs text).length + 1) + (splitWs text).length + 1)
        (splitWs text) [] []).1
      (wrapGo measure innerW maxFit
        (maxFit * ((splitWs text).length + 1) + (splitWs text).length + 1)
        (splitWs text) [] []).2.1
      (capLines maxFit (flushLines maxFit
        (wrapGo measure innerW maxFit
          (maxFit * ((splitWs text).length + 1) + (splitWs text).length + 1)
          (splitWs text) [] []).2.1
        (wrapGo measure innerW maxFit
          (maxFit * ((splitWs text).length + 1) + (splitWs text).length + 1)
          (splitWs text) [] []).2.2)))
    _ h1 hcap.1
  exact ⟨happ.1, le_trans happ.2 hcap.2⟩

/-- The cap `lines = lines[:max_fit_lines]` bounds the line count with no
hypothesis on the measure at all. -/
theorem capLines_length (maxFit : ℕ) (l : List (List Char)) :
    (capLines maxFit l).length ≤ maxFit := by
  unfold capLines
  split
  · rw [List.length_take]
    omega
  · rename_i hc
    omega

/-- The ellipsis replacement swaps the last line for its ellipsized form, so
it never increases the line count. -/
theorem applyEllipsis_length (measure : List Char → ℚ) (innerW : ℚ) (t : Bool)
    (lines2 : List (List Char)) :
    (applyEllipsis measure innerW t lines2).length ≤ lines2.length := by
  unfold applyEllipsis
  split
  · rename_i hc
    have hne : lines2 ≠ [] := by
      intro hcon
      rw [hcon] at hc
      simp at hc
    simp only [List.length_append, List.length_cons, List.length_nil,
      List.length_dropLast]
    have : 0 < lines2.length := List.length_pos.mpr hne
    omega
  · exact le_refl _

/-- The wrapping computation returns at most `maxFit` lines unconditionally:
the slice `lines[:max_fit_lines]` runs after the flush and the ellipsis
replacement preserves the count. -/
theorem wrapText_count (measure : List Char → ℚ) (innerW : ℚ) (maxFit : ℕ)
    (text : List Char) :
    (wrapText measure innerW maxFit text).1.length ≤ maxFit := by
  unfold wrapText wrapFinish
  dsimp only
  exact le_trans (applyEllipsis_length measure innerW _ _) (capLines_length maxFit _)

/-- Amended C1: the number of lines the wrapping of `draw_box` returns never
exceeds the derived line budget
`min(max(1, floor(inner_h / line_h)), max_lines)`, with no hypothesis at all
(so in particular also in the degenerate case where no single glyph fits);
and provided every single glyph fits within the derived inner width (the
hypothesis the degenerate counterexample violates), every returned line
measures within `inner_w`. -/
theorem draw_box_wrap_width_count (measure : List Char → ℚ)
    (w h padding_x padding_y fontsize dpi line_spacing : ℚ) (max_lines : ℕ)
    (text : List Char) :
    (draw_box_wrap measure w h padding_x padding_y fontsize dpi line_spacing
        max_lines text).1.length ≤
      maxFitLines h padding_y fontsize dpi line_spacing max_lines ∧
    ((∀ c : Char, measure [c] ≤ innerWidth w padding_x) →
      ∀ l ∈ (draw_box_wrap measure w h padding_x padding_y fontsize dpi line_spacing
        max_lines text).1, measure l ≤ innerWidth w padding_x) := by
  constructor
  · unfold draw_box_wrap
    exact wrapText_count measure _ _ text
  · intro h1
    unfold draw_box_wrap
    exact (wrapText_spec measure _ _ text h1).1

theorem draw_box_wrap_width_count_witness :
    (∀ c : Char, (fun l : List Char => ((l.length : ℕ) : ℚ)) [c] ≤ innerWidth (25 / 4) 0) ∧
    (draw_box_wrap (fun l : List Char => ((l.length : ℕ) : ℚ))
        (25 / 4) 5 0 0 1 72 1 999 "abc de".data).1.length ≤
      maxFitLines 5 0 1 72 1 999 ∧
    (∀ l ∈ (draw_box_wrap (fun l : List Char => ((l.length : ℕ) : ℚ))
        (25 / 4) 5 0 0 1 72 1 999 "abc de".data).1,
      (fun l : List Char => ((l.length : ℕ) : ℚ)) l ≤ innerWidth (25 / 4) 0) := by
  have hc : ∀ c : Char, (fun l : List Char => ((l.length : ℕ) : ℚ)) [c] ≤
      innerWidth (25 / 4) 0 := by
    intro c
    norm_num [innerWidth, qmax]
  have h := draw_box_wrap_width_count (fun l : List Char => ((l.length : ℕ) : ℚ))
    (25 / 4) 5 0 0 1 72 1 999 "abc de".data
  exact ⟨hc, h.1, h.2 hc⟩

/-- Counterexample to C1 as stated: in the degenerate case where no single
glyph fits (10px glyphs against a 5px inner width), the binary-search
fallback emits the unchecked one-character prefix `token[:1]`, so the
returned lines "a" and "b" both measure 10px > 5px — the width bound fails
exactly in the case the claim says must still hold. -/
theorem draw_box_width_bound_cex :
    (draw_box_wrap (fun l : List Char => ((10 * l.length : ℕ) : ℚ))
        (25 / 4) 5 0 0 1 72 1 999 "ab".data).1 = [['a'], ['b']] ∧
    ¬ ((fun l : List Char => ((10 * l.length : ℕ) : ℚ)) ['a'] ≤ innerWidth (25 / 4) 0) := by
  have hw : innerWidth (25 / 4) 0 = 5 := by norm_num [innerWidth, qmax]
  have hm : maxFitLines 5 0 1 72 1 999 = 5 := by
    norm_num [maxFitLines, innerHeight, lineHeightPx, pxFromPoints, qmax, imax1, nmin]
    decide
  constructor
  · unfold draw_box_wrap
    rw [hw, hm]
    decide
  · rw [hw]
    decide

/-- C2, evaluated at the failing input: the two-word text "hi" fits entirely
on the single allowed line, yet the block comes back `truncated = true` and
the line is mangled to "hi…" — because the post-loop flush leaves `current`
nonempty while the flushed line lands exactly on the budget, the stale
`current and len(lines) == max_fit_lines` disjunct fires although every word
is represented. -/
theorem wrap_truncated_spurious :
    splitWs "hi".data = [['h', 'i']] ∧
    wrapText (fun l : List Char => ((10 * l.length : ℕ) : ℚ)) 100 1 "hi".data =
      ([['h', 'i', ellChar]], true) := by
  exact ⟨by decide, by decide⟩

/-! ## C3: the height estimator dominates the column layout -/

theorem estStep_translate (ch : String → List String) (bh lg tg : ℚ) :
    ∀ (secs : List String) (x v : ℚ),
      secs.foldl (estStep ch bh lg tg) (x + v) = x + secs.foldl (estStep ch bh lg tg) v := by
  intro secs
  induction secs with
  | nil => intro x v; rfl
  | cons sec rest ih =>
    intro x v
    rw [List.foldl_cons, List.foldl_cons]
    have hstep : estStep ch bh lg tg (x + v) sec = x + estStep ch bh lg tg v sec := by
      unfold estStep
      dsimp only
      split <;> ring
    rw [hstep, ih]

theorem colStep_fst (ch : String → List String) (bh lg tg : ℚ) (s : ℚ × List ℚ)
    (sec : String) :
    (colStep ch bh lg tg s sec).1 = estStep ch bh lg tg s.1 sec := by
  unfold colStep estStep
  dsimp only
  by_cases hI : (ch sec).isEmpty = true
  · rw [if_pos hI, if_pos hI]
  · rw [if_neg hI, if_neg hI]
    dsimp only
    ring

theorem colFold_fst (ch : String → List String) (bh lg tg : ℚ) :
    ∀ (secs : List String) (y : ℚ) (acc : List ℚ),
      (secs.foldl (colStep ch bh lg tg) (y, acc)).1 =
        secs.foldl (estStep ch bh lg tg) y := by
  intro secs
  induction secs with
  | nil => intro y acc; rfl
  | cons sec rest ih =>
    intro y acc
    rw [List.foldl_cons, List.foldl_cons]
    have h2 := ih (colStep ch bh lg tg (y, acc) sec).1 (colStep ch bh lg tg (y, acc) sec).2
    calc (List.foldl (colStep ch bh lg tg) (colStep ch bh lg tg (y, acc) sec) rest).1
        = List.foldl (estStep ch bh lg tg) (colStep ch bh lg tg (y, acc) sec).1 rest := h2
      _ = List.foldl (estStep ch bh lg tg) (estStep ch bh lg tg y sec) rest := by
          rw [colStep_fst]

theorem colFold_inv (ch : String → List String) (bh lg tg : ℚ)
    (hb : 0 ≤ bh) (hl : 0 ≤ lg) (ht : 0 ≤ tg) :
    ∀ (secs : List String) (y : ℚ) (acc : List ℚ),
      (∀ b ∈ acc, b ≤ y + 30) →
      ∀ b ∈ (secs.foldl (colStep ch bh lg tg) (y, acc)).2,
        b ≤ (secs.foldl (colStep ch bh lg tg) (y, acc)).1 + 30 := by
  intro secs
  induction secs with
  | nil =>
    intro y acc hacc
    simpa using hacc
  | cons sec rest ih =>
    intro y acc hacc
    rw [List.foldl_cons]
    by_cases hI : (ch sec).isEmpty = true
    · have hstep : colStep ch bh lg tg (y, acc) sec =
          (y + bh + lg, (y + bh) :: (y + bh / 2) :: acc) := by
        unfold colStep
        dsimp only
        rw [if_pos hI]
      rw [hstep]
      apply ih
      intro x hx
      rcases List.mem_cons.mp hx with h0 | hx1
      · subst h0; linarith
      rcases List.mem_cons.mp hx1 with h0 | hx2
      · subst h0; linarith
      · have := hacc x hx2; linarith
    · have hk1 : 1 ≤ (ch sec).length := by
        have hne : ch sec ≠ [] := fun hc => hI (by simp [hc])
        have := List.length_pos.mpr hne
        omega
      have hkq : (1 : ℚ) ≤ ((ch sec).length : ℚ) := by exact_mod_cast hk1
      have hstep : colStep ch bh lg tg (y, acc) sec =
          (y + bh + lg + tg + (((ch sec).length : ℚ) - 1) * (bh + lg) + bh + lg,
            (y + bh + lg + tg + (((ch sec).length : ℚ) - 1) * (bh + lg) + bh + 30) ::
              (((List.range (ch sec).length).map
                  (fun i : ℕ => y + bh + lg + tg + (i : ℚ) * (bh + lg) + bh)) ++
               ((List.range (ch sec).length).map
                  (fun i : ℕ => y + bh + lg + tg + (i : ℚ) * (bh + lg) + bh / 2)) ++
               ((y + bh) :: (y + bh / 2) :: acc))) := by
        unfold colStep
        dsimp only
        rw [if_neg hI]
      rw [hstep]
      apply ih
      have hknn : 0 ≤ (((ch sec).length : ℚ) - 1) * (bh + lg) :=
        mul_nonneg (by linarith) (by linarith)
      intro x hx
      rcases List.mem_cons.mp hx with h0 | hx1
      · subst h0; linarith
      rcases List.mem_append.mp hx1 with hx2 | hx3
      · rcases List.mem_append.mp hx2 with hx4 | hx5
        · rcases List.mem_map.mp hx4 with ⟨i, hi, hxe⟩
          have hilt : i < (ch sec).length := List.mem_range.mp hi
          have hik : (i : ℚ) ≤ ((ch sec).length : ℚ) - 1 := by
            have h2 : ((i : ℚ) + 1) ≤ ((ch sec).length : ℚ) := by
              exact_mod_cast Nat.succ_le_of_lt hilt
            linarith
          have hprod : (i : ℚ) * (bh + lg) ≤ (((ch sec).length : ℚ) - 1) * (bh + lg) :=
            mul_le_mul_of_nonneg_right hik (by linarith)
          subst hxe
          linarith
        · rcases List.mem_map.mp hx5 with ⟨i, hi, hxe⟩
          have hilt : i < (ch sec).length := List.mem_range.mp hi
          have hik : (i : ℚ) ≤ ((ch sec).length : ℚ) - 1 := by
            have h2 : ((i : ℚ) + 1) ≤ ((ch sec).length : ℚ) := by
              exact_mod_cast Nat.succ_le_of_lt hilt
            linarith
          have hprod : (i : ℚ) * (bh + lg) ≤ (((ch sec).length : ℚ) - 1) * (bh + lg) :=
            mul_le_mul_of_nonneg_right hik (by linarith)
          subst hxe
          linarith
      · rcases List.mem_cons.mp hx3 with h0 | hx4
        · subst h0; linarith
        rcases List.mem_cons.mp hx4 with h0 | hx5
        · subst h0; linarith
        · have := hacc x hx5; linarith

/-- C3: every bottom edge the column layout of `main` produces for a root's
column started at `y0` stays within `y0` plus the value of
`estimate_height(root, children, box_h, lvl_gap_y, third_gap)` — the
estimator is a monotonic over-approximation of the vertical span actually
consumed, for every tree shape (in particular all trees of depth ≤ 4 and
branching ≤ 6) and all nonnegative gap parameters. -/
theorem estimate_height_sound (ch : String → List String) (root : String)
    (bh lg tg y0 b : ℚ) (hb : 0 ≤ bh) (hl : 0 ≤ lg) (ht : 0 ≤ tg)
    (hmem : b ∈ columnBottoms ch root bh lg tg y0) :
    b ≤ y0 + estimate_height root ch bh lg tg := by
  unfold columnBottoms at hmem
  have hinit : ∀ x ∈ [y0 + bh, y0 + bh / 2], x ≤ (y0 + bh + lg) + 30 := by
    intro x hx
    rcases List.mem_cons.mp hx with h0 | hx1
    · subst h0; linarith
    rcases List.mem_cons.mp hx1 with h0 | hx2
    · subst h0; linarith
    · simp at hx2
  have hinv := colFold_inv ch bh lg tg hb hl ht (ch root) (y0 + bh + lg)
    [y0 + bh, y0 + bh / 2] hinit b hmem
  rw [colFold_fst] at hinv
  have hassoc : y0 + bh + lg = y0 + (bh + lg) := by ring
  rw [hassoc, estStep_translate] at hinv
  unfold estimate_height
  linarith

/-- A depth-3 tree used to instantiate the estimator-soundness theorem. -/
def ch0 : String → List String := fun s =>
  if s = "1" then ["1.1", "1.2"] else if s = "1.1" then ["1.1.1"] else []

theorem estimate_height_sound_witness :
    (0 : ℚ) ≤ 720 ∧ (0 : ℚ) ≤ 300 ∧ (0 : ℚ) ≤ 360 ∧
    (1380 : ℚ) ∈ columnBottoms ch0 "1" 720 300 360 660 ∧
    (1380 : ℚ) ≤ 660 + estimate_height "1" ch0 720 300 360 := by
  have hmem : (1380 : ℚ) ∈ columnBottoms ch0 "1" 720 300 360 660 := by
    simp [columnBottoms, colStep, ch0]
    norm_num
  exact ⟨by norm_num, by norm_num, by norm_num, hmem,
    estimate_height_sound ch0 "1" 720 300 360 660 1380
      (by norm_num) (by norm_num) (by norm_num) hmem⟩

/-! ## C8: connector orthogonality -/

theorem vseg_aligned (x y1 y2 : ℚ) : axisAligned (vseg x y1 y2) := Or.inl rfl

theorem hseg_aligned (x1 x2 y : ℚ) : axisAligned (hseg x1 x2 y) := Or.inr rfl

theorem secsSegs_aligned (ch : String → List String) (cfg : WbsCfg)
    (xSpine xLeft xCenter : ℚ) :
    ∀ (secs : List String) (y : ℚ) (s : Seg),
      s ∈ secsSegs ch cfg xSpine xLeft xCenter secs y → axisAligned s := by
  intro secs
  induction secs with
  | nil =>
    intro y s hs
    simp [secsSegs] at hs
  | cons sec rest ih =>
    intro y s hs
    unfold secsSegs at hs
    dsimp only at hs
    by_cases hI : (ch sec).isEmpty = true
    · rw [if_pos hI] at hs
      rcases List.mem_cons.mp hs with h0 | h1
      · subst h0; exact hseg_aligned _ _ _
      · exact ih _ s h1
    · rw [if_neg hI] at hs
      rcases List.mem_append.mp hs with h1 | h2
      · rcases List.mem_cons.mp h1 with h0 | h1
        · subst h0; exact hseg_aligned _ _ _
        rcases List.mem_cons.mp h1 with h0 | h1
        · subst h0; exact hseg_aligned _ _ _
        rcases List.mem_cons.mp h1 with h0 | h1
        · subst h0; exact vseg_aligned _ _ _
        rcases List.mem_cons.mp h1 with h0 | h1
        · subst h0; exact vseg_aligned _ _ _
        · rcases List.mem_map.mp h1 with ⟨i, _, hxe⟩
          subst hxe
          exact hseg_aligned _ _ _
      · exact ih _ s h2

theorem columnSegs_aligned (ch : String → List String) (cfg : WbsCfg)
    (xTitle titleBottom yStart : ℚ) (root : String) (xCenter : ℚ) (s : Seg)
    (hs : s ∈ columnSegs ch cfg xTitle titleBottom yStart root xCenter) :
    axisAligned s := by
  unfold columnSegs at hs
  dsimp only at hs
  rcases List.mem_append.mp hs with h1 | h2
  · rcases List.mem_cons.mp h1 with h0 | h1
    · subst h0; exact vseg_aligned _ _ _
    rcases List.mem_cons.mp h1 with h0 | h1
    · subst h0; exact hseg_aligned _ _ _
    rcases List.mem_cons.mp h1 with h0 | h1
    · subst h0; exact hseg_aligned _ _ _
    · exact secsSegs_aligned ch cfg _ _ _ _ _ s h1
  · rcases hmatch : lastSecMid ch cfg (ch root) (yStart + cfg.bh + cfg.lg) with _ | m
    · rw [hmatch] at h2
      simp at h2
    · rw [hmatch] at h2
      rcases List.mem_singleton.mp h2 with h0
      rw [h0]
      exact vseg_aligned _ _ _

theorem wbsSegments_aligned (df : List (String × String)) (s : Seg)
    (hs : s ∈ wbsSegments df) : axisAligned s := by
  unfold wbsSegments at hs
  dsimp only at hs
  rcases List.mem_flatMap.mp hs with ⟨p, _, hcol⟩
  exact columnSegs_aligned _ _ _ _ _ _ _ s hcol

theorem ganttConnectorPaths_ortho (rows : List GRow) (p : List (ℚ × ℚ))
    (hp : p ∈ ganttConnectorPaths rows) : pathOrtho p := by
  unfold ganttConnectorPaths at hp
  rcases List.mem_flatMap.mp hp with ⟨q, _, hq⟩
  rcases List.mem_flatMap.mp hq with ⟨dep, _, hd⟩
  unfold pathsOfDep at hd
  rcases hidx : idIndex rows dep with _ | pred
  · rw [hidx] at hd
    simp at hd
  · rw [hidx] at hd
    dsimp only at hd
    rcases List.mem_singleton.mp hd with h0
    rw [h0]
    unfold pathOrtho
    refine List.chain'_cons.mpr ⟨Or.inr rfl, ?_⟩
    refine List.chain'_cons.mpr ⟨Or.inl rfl, ?_⟩
    exact List.chain'_singleton _

theorem milestoneItems_ortho (df : List MRow) (it : MItem)
    (hit : it ∈ milestoneItems df) : pathOrtho it.connector := by
  unfold milestoneItems at hit
  rcases List.mem_map.mp hit with ⟨p, _, hpe⟩
  subst hpe
  unfold mkMItem pathOrtho
  dsimp only
  refine List.chain'_cons.mpr ⟨Or.inl rfl, ?_⟩
  exact List.chain'_singleton _

/-- C8: every connector segment any of the three layouts produces is
axis-aligned — the WBS tree edges (built from `vline`/`hline` only), the
Gantt dependency elbows (one horizontal then one vertical stroke), and the
milestone stagger connectors (a single vertical stroke). -/
theorem connectors_axis_aligned :
    (∀ (df : List (String × String)) (s : Seg), s ∈ wbsSegments df → axisAligned s) ∧
    (∀ (rows : List GRow) (p : List (ℚ × ℚ)), p ∈ ganttConnectorPaths rows → pathOrtho p) ∧
    (∀ (df : List MRow) (it : MItem), it ∈ milestoneItems df → pathOrtho it.connector) :=
  ⟨fun df s hs => wbsSegments_aligned df s hs,
   fun rows p hp => ganttConnectorPaths_ortho rows p hp,
   fun df it hit => milestoneItems_ortho df it hit⟩

/-- Two Gantt rows with a resolvable dependency, producing one elbow path. -/
def grows1 : List GRow :=
  [⟨some "A", "t", 2, 5, false, []⟩, ⟨some "B", "u", 7, 9, false, ["A"]⟩]

theorem connectors_axis_aligned_witness :
    ((wbsSegments [("1", "a")]).get ⟨0, by decide⟩ ∈ wbsSegments [("1", "a")]) ∧
    axisAligned ((wbsSegments [("1", "a")]).get ⟨0, by decide⟩) ∧
    ((ganttConnectorPaths grows1).get ⟨0, by decide⟩ ∈ ganttConnectorPaths grows1) ∧
    pathOrtho ((ganttConnectorPaths grows1).get ⟨0, by decide⟩) ∧
    ((milestoneItems mrows0).get ⟨0, by decide⟩ ∈ milestoneItems mrows0) ∧
    pathOrtho (((milestoneItems mrows0).get ⟨0, by decide⟩).connector) := by
  refine ⟨List.get_mem _ _ _, ?_, List.get_mem _ _ _, ?_, List.get_mem _ _ _, ?_⟩
  · exact connectors_axis_aligned.1 [("1", "a")] _ (List.get_mem _ _ _)
  · exact connectors_axis_aligned.2.1 grows1 _ (List.get_mem _ _ _)
  · exact connectors_axis_aligned.2.2 mrows0 _ (List.get_mem _ _ _)

/-! ## Dotted-path lemmas for the hierarchy claims -/

theorem splitDot_ne_nil (cs : List Char) : splitDot cs ≠ [] := by
  induction cs with
  | nil => simp [splitDot]
  | cons c cs ih =>
    unfold splitDot
    dsimp only
    by_cases hc : c = '.'
    · rw [if_pos hc]; simp
    · rw [if_neg hc]; simp

theorem splitDot_length_pos (cs : List Char) : 1 ≤ (splitDot cs).length :=
  List.length_pos.mpr (splitDot_ne_nil cs)

theorem mem_splitDot_no_dot (cs : List Char) :
    ∀ s ∈ splitDot cs, ('.' : Char) ∉ s := by
  induction cs with
  | nil =>
    intro s hs
    simp only [splitDot, List.mem_singleton] at hs
    subst hs
    simp
  | cons c cs ih =>
    intro s hs
    unfold splitDot at hs
    dsimp only at hs
    by_cases hc : c = '.'
    · rw [if_pos hc] at hs
      rcases List.mem_cons.mp hs with h0 | h1
      · subst h0; simp
      · exact ih s h1
    · rw [if_neg hc] at hs
      rcases List.mem_cons.mp hs with h0 | h1
      · subst h0
        intro hdot
        rcases List.mem_cons.mp hdot with h2 | h3
        · exact hc h2.symm
        · have hne := splitDot_ne_nil cs
          have hhead : (splitDot cs).headD [] ∈ splitDot cs := by
            cases hsd : splitDot cs with
            | nil => exact absurd hsd hne
            | cons a l => simp [hsd]
          exact ih _ hhead h3
      · exact ih s (List.mem_of_mem_tail h1)

theorem splitDot_no_dot_self (s : List Char) (h : ('.' : Char) ∉ s) :
    splitDot s = [s] := by
  induction s with
  | nil => rfl
  | cons c cs ih =>
    have hc : c ≠ '.' := fun hcc => h (by rw [hcc]; exact List.mem_cons_self _ _)
    have hcs : ('.' : Char) ∉ cs := fun hm => h (List.mem_cons_of_mem _ hm)
    unfold splitDot
    dsimp only
    rw [if_neg hc, ih hcs]
    rfl

theorem splitDot_append_dot (s rest : List Char) (h : ('.' : Char) ∉ s) :
    splitDot (s ++ '.' :: rest) = s :: splitDot rest := by
  induction s with
  | nil =>
    show splitDot ('.' :: rest) = [] :: splitDot rest
    simp [splitDot]
  | cons c cs ih =>
    have hc : c ≠ '.' := fun hcc => h (by rw [hcc]; exact List.mem_cons_self _ _)
    have hcs : ('.' : Char) ∉ cs := fun hm => h (List.mem_cons_of_mem _ hm)
    show splitDot (c :: (cs ++ '.' :: rest)) = (c :: cs) :: splitDot rest
    simp only [splitDot]
    rw [if_neg hc, ih hcs]
    simp only [List.headD_cons, List.tail_cons]

theorem splitDot_joinDot :
    ∀ (ss : List (List Char)), ss ≠ [] → (∀ s ∈ ss, ('.' : Char) ∉ s) →
      splitDot (joinDot ss) = ss := by
  intro ss
  induction ss with
  | nil => intro h; exact absurd rfl h
  | cons s ss ih =>
    intro _ hno
    cases ss with
    | nil =>
      show splitDot (joinDot [s]) = [s]
      unfold joinDot
      exact splitDot_no_dot_self s (hno s (List.mem_cons_self _ _))
    | cons t ts =>
      show splitDot (joinDot (s :: t :: ts)) = s :: t :: ts
      have hj : joinDot (s :: t :: ts) = s ++ '.' :: joinDot (t :: ts) := rfl
      rw [hj, splitDot_append_dot s _ (hno s (List.mem_cons_self _ _)),
        ih (by simp) (fun x hx => hno x (List.mem_cons_of_mem _ hx))]

theorem dot_mem_iff_split (cs : List Char) :
    ('.' : Char) ∈ cs ↔ 2 ≤ (splitDot cs).length := by
  induction cs with
  | nil => simp [splitDot]
  | cons c cs ih =>
    unfold splitDot
    dsimp only
    by_cases hc : c = '.'
    · rw [if_pos hc]
      subst hc
      simp only [List.length_cons, List.mem_cons]
      constructor
      · intro _
        have := splitDot_length_pos cs
        omega
      · intro _
        exact Or.inl (by simp)
    · rw [if_neg hc]
      simp only [List.length_cons, List.mem_cons]
      have hne := splitDot_ne_nil cs
      have hp := splitDot_length_pos cs
      have htl : ((splitDot cs).tail).length = (splitDot cs).length - 1 :=
        List.length_tail _
      constructor
      · intro h
        rcases h with h0 | h1
        · exact absurd h0.symm hc
        · have := ih.mp h1
          omega
      · intro h
        right
        apply ih.mpr
        omega

theorem hasDot_iff (k : String) : hasDot k = true ↔ 2 ≤ depth k := by
  unfold hasDot depth
  have hcm : k.data.contains '.' = true ↔ ('.' : Char) ∈ k.data := by
    simp [List.contains_iff_exists_mem_beq]
  rw [hcm]
  exact dot_mem_iff_split k.data

theorem depth_pos (k : String) : 1 ≤ depth k := splitDot_length_pos _

theorem not_hasDot_depth (k : String) (h : hasDot k = false) : depth k = 1 := by
  have hd := depth_pos k
  have h2 : ¬ 2 ≤ depth k := fun hc => by
    rw [(hasDot_iff k).mpr hc] at h
    simp at h
  omega

theorem parentId_splitDot (k : String) (h : hasDot k = true) :
    splitDot (parentId k).data = (splitDot k.data).dropLast := by
  have h2 : 2 ≤ (splitDot k.data).length := (hasDot_iff k).mp h
  show splitDot (joinDot ((splitDot k.data).dropLast)) = (splitDot k.data).dropLast
  apply splitDot_joinDot
  · intro hc
    have hlen := congrArg List.length hc
    rw [List.length_dropLast] at hlen
    simp at hlen
    omega
  · intro s hs
    exact mem_splitDot_no_dot k.data s (List.mem_of_mem_dropLast hs)

theorem depth_parent (k : String) (h : hasDot k = true) :
    depth (parentId k) = depth k - 1 := by
  unfold depth
  rw [parentId_splitDot k h, List.length_dropLast]

/-! ## Lemmas about `IsUnder` -/

theorem isUnder_depth_le (r k : String) (h : IsUnder r k) : depth r ≤ depth k := by
  induction h with
  | refl => exact le_refl _
  | step k hd _ ih =>
    have h1 := depth_parent k hd
    have h2 := (hasDot_iff k).mp hd
    omega

theorem isUnder_eq_of_depth (r k : String) (h : IsUnder r k) (hd : depth r = depth k) :
    r = k := by
  cases h with
  | refl => rfl
  | step _ hdot hu =>
    exfalso
    have h1 := isUnder_depth_le _ _ hu
    have h2 := depth_parent k hdot
    have h3 := (hasDot_iff k).mp hdot
    omega

theorem isUnder_parent_of (c x : String) (hd : hasDot c = true) (h : IsUnder c x) :
    IsUnder (parentId c) x := by
  induction h with
  | refl => exact IsUnder.step _ _ hd (IsUnder.refl _)
  | step k hk _ ih => exact IsUnder.step _ _ hk ih

theorem isUnder_trans_child (c r x : String) (hdc : hasDot c = true)
    (hpc : parentId c = r) (h : IsUnder c x) : IsUnder r x := by
  subst hpc
  exact isUnder_parent_of c x hdc h

theorem isUnder_unique_depth (n : ℕ) :
    ∀ (x c c2 : String), depth x ≤ n → IsUnder c x → IsUnder c2 x →
      depth c = depth c2 → c = c2 := by
  induction n with
  | zero =>
    intro x c c2 hx _ _ _
    exfalso
    have := depth_pos x
    omega
  | succ n ih =>
    intro x c c2 hx h1 h2 hd
    cases h1 with
    | refl =>
      exact (isUnder_eq_of_depth c2 x h2 hd.symm).symm
    | step _ hdot hu1 =>
      cases h2 with
      | refl =>
        exfalso
        have ha := isUnder_depth_le _ _ hu1
        have hb := depth_parent x hdot
        have hc2 := (hasDot_iff x).mp hdot
        omega
      | step _ hdot2 hu2 =>
        apply ih (parentId x) c c2 ?_ hu1 hu2 hd
        have hb := depth_parent x hdot
        have hc2 := (hasDot_iff x).mp hdot
        omega

theorem exists_child_anc (r x : String) (h : IsUnder r x) :
    r ≠ x → ∃ c, hasDot c = true ∧ parentId c = r ∧ IsUnder c x ∧
      depth c = depth r + 1 := by
  induction h with
  | refl => intro hne; exact absurd rfl hne
  | step k hdot hu ih =>
    intro _
    by_cases hreq : r = parentId k
    · subst hreq
      refine ⟨k, hdot, rfl, IsUnder.refl k, ?_⟩
      have h1 := depth_parent k hdot
      have h2 := (hasDot_iff k).mp hdot
      omega
    · rcases ih hreq with ⟨c, hc1, hc2, hc3, hc4⟩
      exact ⟨c, hc1, hc2, IsUnder.step c k hdot hc3, hc4⟩

theorem exists_root_anc (n : ℕ) :
    ∀ x : String, depth x ≤ n → ∃ t, IsUnder t x ∧ hasDot t = false := by
  induction n with
  | zero =>
    intro x hx
    exfalso
    have := depth_pos x
    omega
  | succ n ih =>
    intro x hx
    by_cases hd : hasDot x = true
    · have hdp : depth (parentId x) ≤ n := by
        have h1 := depth_parent x hd
        have h2 := (hasDot_iff x).mp hd
        omega
      rcases ih (parentId x) hdp with ⟨t, ht1, ht2⟩
      exact ⟨t, IsUnder.step t x hd ht1, ht2⟩
    · exact ⟨x, IsUnder.refl x, by simpa using hd⟩

theorem anc_mem_of_closed (ids : List String)
    (hclosed : ∀ k ∈ ids, hasDot k = true → parentId k ∈ ids) :
    ∀ (c x : String), IsUnder c x → x ∈ ids → c ∈ ids := by
  intro c x h
  induction h with
  | refl => exact fun h2 => h2
  | step k hd _ ih => exact fun hk => ih (hclosed k hk hd)

/-! ## Counting lemmas for the sorted children lists -/

theorem insertOrd_count (lt : String → String → Bool) (a : String) :
    ∀ (l : List String) (x : String),
      (insertOrd lt a l).count x = (a :: l).count x := by
  intro l
  induction l with
  | nil => intro x; rfl
  | cons b bs ih =>
    intro x
    unfold insertOrd
    by_cases hlt : lt b a = true
    · rw [if_pos hlt]
      rw [List.count_cons, ih x, List.count_cons, List.count_cons, List.count_cons]
      omega
    · rw [if_neg hlt]

theorem pySortBy_count (lt : String → String → Bool) :
    ∀ (l : List String) (x : String), (pySortBy lt l).count x = l.count x := by
  intro l
  induction l with
  | nil => intro x; rfl
  | cons a as ih =>
    intro x
    show (insertOrd lt a (pySortBy lt as)).count x = _
    rw [insertOrd_count, List.count_cons, List.count_cons, ih]

theorem mem_pySortBy (lt : String → String → Bool) (l : List String) (x : String) :
    x ∈ pySortBy lt l ↔ x ∈ l := by
  rw [← List.count_pos_iff, pySortBy_count, List.count_pos_iff]

theorem count_filter_strings (p : String → Bool) :
    ∀ (l : List String) (x : String),
      (l.filter p).count x = if p x = true then l.count x else 0 := by
  intro l
  induction l with
  | nil => intro x; simp
  | cons a as ih =>
    intro x
    rw [List.filter_cons]
    by_cases hpa : p a = true
    · rw [if_pos hpa, List.count_cons, List.count_cons, ih]
      by_cases hxa : a = x
      · subst hxa
        simp [hpa]
      · have hb : (a == x) = false := by simp [hxa]
        rw [hb]
        simp
    · rw [if_neg hpa, ih]
      by_cases hpx : p x = true
      · rw [if_pos hpx, if_pos hpx, List.count_cons]
        have hxa : a ≠ x := by
          intro hc
          rw [hc] at hpa
          exact hpa hpx
        have hb : (a == x) = false := by simp [hxa]
        rw [hb]
        simp
      · rw [if_neg hpx, if_neg hpx]

/-! ## Membership and counts in `childrenMap` and `top_levels` -/

theorem mem_childrenMap (df : List (String × String)) (c p : String) :
    c ∈ childrenMap df p ↔
      c ∈ nodeIds df ∧ hasDot c = true ∧ parentId c = p := by
  unfold childrenMap
  rw [mem_pySortBy, List.mem_filter]
  constructor
  · rintro ⟨h1, h2⟩
    simp only [Bool.and_eq_true, beq_iff_eq] at h2
    exact ⟨h1, h2.1, h2.2⟩
  · rintro ⟨h1, h2, h3⟩
    refine ⟨h1, ?_⟩
    simp only [Bool.and_eq_true, beq_iff_eq]
    exact ⟨h2, h3⟩

theorem count_childrenMap (df : List (String × String)) (c p : String)
    (hc : c ∈ nodeIds df) (hd : hasDot c = true) (hp : parentId c = p) :
    (childrenMap df p).count c = 1 := by
  unfold childrenMap
  rw [pySortBy_count, count_filter_strings]
  rw [if_pos (by simp [hd, hp])]
  exact List.count_eq_one_of_mem (nodeIds_nodup df) hc

theorem mem_top_levels (df : List (String × String)) (t : String) :
    t ∈ top_levels df ↔ t ∈ nodeIds df ∧ hasDot t = false := by
  unfold top_levels
  rw [mem_pySortBy, List.mem_filter]
  constructor
  · rintro ⟨h1, h2⟩
    simp only [Bool.not_eq_true'] at h2
    exact ⟨h1, h2⟩
  · rintro ⟨h1, h2⟩
    refine ⟨h1, ?_⟩
    simp [h2]

theorem count_top_levels (df : List (String × String)) (t : String)
    (ht : t ∈ nodeIds df) (hd : hasDot t = false) :
    (top_levels df).count t = 1 := by
  unfold top_levels
  rw [pySortBy_count, count_filter_strings]
  rw [if_pos (by simp [hd])]
  exact List.count_eq_one_of_mem (nodeIds_nodup df) ht

theorem buildNodes_id (df : List (String × String))
    (h : (df.map Prod.fst).Nodup) : buildNodes df = df := by
  induction df using List.reverseRecOn with
  | nil => rfl
  | append_singleton ds p ih =>
    rw [buildNodes_append]
    rw [List.map_append] at h
    have hnd : (ds.map Prod.fst).Nodup := h.of_append_left
    have hnotin : p.1 ∉ ds.map Prod.fst := by
      have hdisj := List.disjoint_of_nodup_append h
      intro hc
      exact hdisj hc (by simp)
    rw [ih hnd]
    unfold dictInsert
    rw [if_neg ?_]
    intro hc
    rcases List.any_eq_true.mp hc with ⟨q, hq, hqe⟩
    simp only [decide_eq_true_eq] at hqe
    exact hnotin (List.mem_map.mpr ⟨q, hq, hqe⟩)

/-! ## Counting a node in the traversal -/

theorem count_flatMap_zero (x : String) (f : String → List String) :
    ∀ l : List String, (∀ c ∈ l, (f c).count x = 0) → (l.flatMap f).count x = 0 := by
  intro l
  induction l with
  | nil => intro _; rfl
  | cons a as ih =>
    intro h
    rw [List.flatMap_cons, List.count_append]
    rw [h a (List.mem_cons_self _ _), ih (fun c hc => h c (List.mem_cons_of_mem _ hc))]

theorem count_flatMap_one (x c0 : String) (f : String → List String) :
    ∀ l : List String, l.count c0 = 1 → (∀ c ∈ l, c ≠ c0 → (f c).count x = 0) →
      (f c0).count x = 1 → (l.flatMap f).count x = 1 := by
  intro l
  induction l with
  | nil =>
    intro h
    simp at h
  | cons a as ih =>
    intro hcount hzero hone
    rw [List.flatMap_cons, List.count_append]
    by_cases hac : a = c0
    · subst hac
      have has : as.count a = 0 := by
        rw [List.count_cons] at hcount
        simp at hcount
        omega
      have hzs : ∀ c ∈ as, (f c).count x = 0 := by
        intro c hcas
        by_cases hcc : c = a
        · subst hcc
          exact absurd (List.count_pos_iff.mpr hcas) (by omega)
        · exact hzero c (List.mem_cons_of_mem _ hcas) hcc
      rw [hone, count_flatMap_zero x f as hzs]
    · have h1 : as.count c0 = 1 := by
        rw [List.count_cons] at hcount
        have hb : (a == c0) = false := by simp [hac]
        rw [hb] at hcount
        simpa using hcount
      rw [hzero a (List.mem_cons_self _ _) hac,
        ih h1 (fun c hc hne => hzero c (List.mem_cons_of_mem _ hc) hne) hone]

theorem descend_subset (df : List (String × String)) :
    ∀ (fuel : ℕ) (r y : String), r ∈ nodeIds df →
      y ∈ descend (childrenMap df) fuel r → y ∈ nodeIds df := by
  intro fuel
  induction fuel with
  | zero =>
    intro r y hr hy
    simp only [descend, List.mem_singleton] at hy
    subst hy
    exact hr
  | succ fuel ih =>
    intro r y hr hy
    rcases List.mem_cons.mp hy with h0 | h1
    · subst h0; exact hr
    · rcases List.mem_flatMap.mp h1 with ⟨c, hc, hyc⟩
      exact ih c y ((mem_childrenMap df c r).mp hc).1 hyc

theorem descend_count_zero (df : List (String × String)) (x : String) :
    ∀ (fuel : ℕ) (r : String), ¬ IsUnder r x →
      (descend (childrenMap df) fuel r).count x = 0 := by
  intro fuel
  induction fuel with
  | zero =>
    intro r hu
    have hx : x ≠ r := fun hc => hu (by rw [hc]; exact IsUnder.refl r)
    simp [descend, List.count_cons, hx]
  | succ fuel ih =>
    intro r hu
    have hx : x ≠ r := fun hc => hu (by rw [hc]; exact IsUnder.refl r)
    show (r :: (childrenMap df r).flatMap (descend (childrenMap df) fuel)).count x = 0
    rw [List.count_cons]
    have hz : ((childrenMap df r).flatMap (descend (childrenMap df) fuel)).count x = 0 := by
      apply count_flatMap_zero
      intro c hc
      apply ih
      intro hcu
      rcases (mem_childrenMap df c r).mp hc with ⟨_, hcd, hcp⟩
      exact hu (isUnder_trans_child c r x hcd hcp hcu)
    rw [hz]
    have hb : (r == x) = false := by
      simp only [beq_eq_false_iff_ne, ne_eq]
      exact fun hc => hx hc.symm
    rw [hb]
    simp

theorem descend_count_one (df : List (String × String))
    (hclosed : ∀ k ∈ nodeIds df, hasDot k = true → parentId k ∈ nodeIds df)
    (x : String) (hx : x ∈ nodeIds df) :
    ∀ (fuel : ℕ) (r : String), r ∈ nodeIds df → IsUnder r x →
      depth x ≤ depth r + fuel →
      (descend (childrenMap df) fuel r).count x = 1 := by
  intro fuel
  induction fuel with
  | zero =>
    intro r _ hu hdep
    have hle := isUnder_depth_le r x hu
    have hrx : r = x := isUnder_eq_of_depth r x hu (by omega)
    subst hrx
    simp [descend]
  | succ fuel ih =>
    intro r hr hu hdep
    show (r :: (childrenMap df r).flatMap (descend (childrenMap df) fuel)).count x = 1
    rw [List.count_cons]
    by_cases hxr : x = r
    · subst hxr
      have hz : ((childrenMap df x).flatMap (descend (childrenMap df) fuel)).count x = 0 := by
        apply count_flatMap_zero
        intro c hc
        apply descend_count_zero
        intro hcu
        rcases (mem_childrenMap df c x).mp hc with ⟨_, hcd, hcp⟩
        have h1 := isUnder_depth_le c x hcu
        have h2 := depth_parent c hcd
        have h3 := (hasDot_iff c).mp hcd
        rw [hcp] at h2
        omega
      rw [hz]
      simp
    · rcases exists_child_anc r x hu (fun hc => hxr hc.symm) with
        ⟨c0, hc0d, hc0p, hc0u, hc0dep⟩
      have hc0ids : c0 ∈ nodeIds df :=
        anc_mem_of_closed (nodeIds df) hclosed c0 x hc0u hx
      have hcount1 : (childrenMap df r).count c0 = 1 :=
        count_childrenMap df c0 r hc0ids hc0d hc0p
      have hflat : ((childrenMap df r).flatMap
          (descend (childrenMap df) fuel)).count x = 1 := by
        apply count_flatMap_one x c0 _ _ hcount1
        · intro c hc hne
          apply descend_count_zero
          intro hcu
          rcases (mem_childrenMap df c r).mp hc with ⟨_, hcd, hcp⟩
          have hdepc : depth c = depth r + 1 := by
            have h2 := depth_parent c hcd
            have h3 := (hasDot_iff c).mp hcd
            rw [hcp] at h2
            omega
          exact hne (isUnder_unique_depth (depth x) x c c0 (le_refl _) hcu hc0u
            (by omega))
        · apply ih c0 hc0ids hc0u
          omega
      rw [hflat]
      have hb : (r == x) = false := by
        simp only [beq_eq_false_iff_ne, ne_eq]
        exact fun hc => hxr hc.symm
      rw [hb]
      simp

/-! ## C5: the hierarchy round-trip -/

/-- Amended C5: for unique ids whose parent prefixes are all present
(prefix-closed input) and fuel covering the maximal depth, the `nodes` dict
keys are exactly the input ids, and the traversal of the forest — every root
of `top_levels` followed by all descendants reachable through the children
mapping — is a permutation of the input ids: every id exactly once. -/
theorem build_hierarchy_roundtrip_amended (df : List (String × String)) (fuel : ℕ)
    (huniq : (df.map Prod.fst).Nodup)
    (hclosed : ∀ k ∈ df.map Prod.fst, hasDot k = true → parentId k ∈ df.map Prod.fst)
    (hfuel : ∀ k ∈ df.map Prod.fst, depth k ≤ fuel + 1) :
    nodeIds df = df.map Prod.fst ∧
    ((top_levels df).flatMap (descend (childrenMap df) fuel)).Perm
      (df.map Prod.fst) := by
  have hids : nodeIds df = df.map Prod.fst := by
    unfold nodeIds
    rw [buildNodes_id df huniq]
  refine ⟨hids, ?_⟩
  rw [← hids] at hclosed hfuel ⊢
  rw [List.perm_iff_count]
  intro x
  by_cases hx : x ∈ nodeIds df
  · rcases exists_root_anc (depth x) x (le_refl _) with ⟨t, htu, htd⟩
    have htids : t ∈ nodeIds df :=
      anc_mem_of_closed (nodeIds df) hclosed t x htu hx
    have htcount : (top_levels df).count t = 1 := count_top_levels df t htids htd
    have hone : (descend (childrenMap df) fuel t).count x = 1 := by
      apply descend_count_one df hclosed x hx fuel t htids htu
      have h1 := not_hasDot_depth t htd
      have h2 := hfuel x hx
      omega
    have hzero : ∀ r ∈ top_levels df, r ≠ t →
        (descend (childrenMap df) fuel r).count x = 0 := by
      intro r hrt hne
      apply descend_count_zero
      intro hru
      rcases (mem_top_levels df r).mp hrt with ⟨_, hrd⟩
      refine hne (isUnder_unique_depth (depth x) x r t (le_refl _) hru htu ?_)
      rw [not_hasDot_depth r hrd, not_hasDot_depth t htd]
    rw [count_flatMap_one x t _ _ htcount hzero hone,
      List.count_eq_one_of_mem (nodeIds_nodup df) hx]
  · rw [List.count_eq_zero_of_not_mem hx]
    apply count_flatMap_zero
    intro r hrt
    apply List.count_eq_zero_of_not_mem
    intro hc
    exact hx (descend_subset df fuel r x ((mem_top_levels df r).mp hrt).1 hc)

/-- Counterexample to C5 as stated: the single orphan id "1.1" (well-formed
and unique, but its parent "1" is absent) yields no roots at all, so the
traversal is empty and does not round-trip the id set. -/
theorem build_hierarchy_roundtrip_cex :
    nodeIds [("1.1", "a")] = ["1.1"] ∧
    top_levels [("1.1", "a")] = [] ∧
    (top_levels [("1.1", "a")]).flatMap (descend (childrenMap [("1.1", "a")]) 2) = [] := by
  refine ⟨?_, ?_, ?_⟩ <;> decide

/-- A prefix-closed input with two roots and two children of "1". -/
def hdf1 : List (String × String) :=
  [("1", "a"), ("1.1", "b"), ("1.2", "c"), ("2", "d")]

theorem build_hierarchy_roundtrip_amended_witness :
    (hdf1.map Prod.fst).Nodup ∧
    (∀ k ∈ hdf1.map Prod.fst, hasDot k = true → parentId k ∈ hdf1.map Prod.fst) ∧
    (∀ k ∈ hdf1.map Prod.fst, depth k ≤ 1 + 1) ∧
    nodeIds hdf1 = hdf1.map Prod.fst ∧
    ((top_levels hdf1).flatMap (descend (childrenMap hdf1) 1)).Perm
      (hdf1.map Prod.fst) := by
  have h := build_hierarchy_roundtrip_amended hdf1 1 (by decide) (by decide) (by decide)
  exact ⟨by decide, by decide, by decide, h.1, h.2⟩

/-! ## C10: orphans are silently unreachable -/

theorem orphan_unreachable_aux (df : List (String × String)) (k : String)
    (hp : parentId k ∉ nodeIds df) :
    ∀ (fuel : ℕ) (r : String), r ∈ nodeIds df → r ≠ k →
      k ∉ descend (childrenMap df) fuel r := by
  intro fuel
  induction fuel with
  | zero =>
    intro r _ hne hc
    simp only [descend, List.mem_singleton] at hc
    exact hne hc.symm
  | succ fuel ih =>
    intro r hr hne hc
    rcases List.mem_cons.mp hc with h0 | h1
    · exact hne h0.symm
    · rcases List.mem_flatMap.mp h1 with ⟨c, hcmem, hkc⟩
      rcases (mem_childrenMap df c r).mp hcmem with ⟨hcids, _, hcp⟩
      have hck : c ≠ k := by
        intro hcc
        subst hcc
        rw [hcp] at hp
        exact hp hr
      exact ih c hcids hck hkc

/-- C10: an id `k` whose parent id is absent from the input is built without
any error or warning — `build_hierarchy` is total and records nothing — yet
`k` is not a root, sits only in the children list keyed by its non-existent
parent, and is unreachable from `top_levels`, so every traversal silently
omits it. -/
theorem orphan_silently_unreachable (df : List (String × String)) (k : String)
    (hk : k ∈ nodeIds df) (hd : hasDot k = true) (hp : parentId k ∉ nodeIds df) :
    k ∉ top_levels df ∧ k ∈ childrenMap df (parentId k) ∧
    ∀ fuel, k ∉ (top_levels df).flatMap (descend (childrenMap df) fuel) := by
  refine ⟨?_, ?_, ?_⟩
  · intro hc
    rcases (mem_top_levels df k).mp hc with ⟨_, hdk⟩
    rw [hd] at hdk
    exact absurd hdk (by simp)
  · exact (mem_childrenMap df k (parentId k)).mpr ⟨hk, hd, rfl⟩
  · intro fuel hc
    rcases List.mem_flatMap.mp hc with ⟨r, hrt, hkr⟩
    rcases (mem_top_levels df r).mp hrt with ⟨hrids, hrd⟩
    have hrk : r ≠ k := by
      intro hcc
      subst hcc
      rw [hd] at hrd
      exact absurd hrd (by simp)
    exact orphan_unreachable_aux df k hp fuel r hrids hrk hkr

/-- One root "1" and one orphan "2.5" whose parent "2" is absent. -/
def hdf2 : List (String × String) := [("1", "r"), ("2.5", "o")]

theorem orphan_silently_unreachable_witness :
    "2.5" ∈ nodeIds hdf2 ∧ hasDot "2.5" = true ∧ parentId "2.5" ∉ nodeIds hdf2 ∧
    "2.5" ∉ top_levels hdf2 ∧ "2.5" ∈ childrenMap hdf2 (parentId "2.5") ∧
    "2.5" ∉ (top_levels hdf2).flatMap (descend (childrenMap hdf2) 3) := by
  have h := orphan_silently_unreachable hdf2 "2.5" (by decide) (by decide) (by decide)
  exact ⟨by decide, by decide, by decide, h.1, h.2.1, h.2.2 3⟩

end PM
